import Mathlib

/-!
Verification development for the blackbird username-probing tool.

The program keeps a local JSON catalog of sites (the WhatsMyName list),
refreshes it from a remote URL by comparing MD5 fingerprints of the
canonicalized (key-sorted) JSON serializations, and probes every site of the
catalog concurrently for a given username.

The development shallowly embeds the program:

* JSON documents are the inductive type `Json` (Python `None`/`bool`/`int`/
  `str`/`list`/`dict` values; floats are outside the model, see `parseNumber`).
* `json.dumps(x, indent=4, ensure_ascii=False)` is `dumpVal4`,
  `json.dumps(x, sort_keys=True)` is `dumpSorted`, `json.load`/`.json()` is
  `jsonParse`, and `hashlib.md5(...).hexdigest()` is `md5Hex`.
* The network (`requests` / `aiohttp`) is an oracle mapping a method and URL
  to either a raised exception or an `HttpResponse`; the catalog file is an
  `FsState`.
* `asyncio.gather` is modelled by `gatherModel`, which receives the list of
  per-task outcomes together with an arbitrary completion order and fills one
  result slot per task as completions arrive.

Functions keep the source names (`doSyncRequest`, `doAsyncRequest`,
`readList`, `downloadList`, `hashJSON`, `fetchResults`, `checkUpdates`,
`get_profile_url`).
-/

/-- JSON values, also serving as the Python values produced by `json.load` /
`response.json()`: `null` is Python `None`, objects are `dict`s in insertion
order, keys are strings.  JSON numbers are modelled by their integer subset
(the catalog contains only integers; floats are out of scope). -/
inductive Json where
  | null : Json
  | bool (b : Bool) : Json
  | int (n : Int) : Json
  | str (s : String) : Json
  | arr (elems : List Json) : Json
  | obj (entries : List (String × Json)) : Json

/-- Structural induction principle for the nested inductive `Json`. -/
theorem Json.indOn (P : Json → Prop)
    (h0 : P .null) (h1 : ∀ b, P (.bool b)) (h2 : ∀ n, P (.int n)) (h3 : ∀ s, P (.str s))
    (h4 : ∀ l, (∀ x ∈ l, P x) → P (.arr l))
    (h5 : ∀ l, (∀ p ∈ l, P p.2) → P (.obj l)) : ∀ j, P j := by
  intro j
  refine Json.rec (motive_2 := fun l => ∀ x ∈ l, P x)
    (motive_3 := fun l => ∀ p ∈ l, P p.2) (motive_4 := fun p => P p.2)
    h0 h1 h2 h3 h4 h5 ?_ ?_ ?_ ?_ ?_ j
  · intro x hx
    exact absurd hx (List.not_mem_nil x)
  · intro h t ph pt x hx
    rcases List.mem_cons.mp hx with rfl | hx
    · exact ph
    · exact pt x hx
  · intro p hp
    exact absurd hp (List.not_mem_nil p)
  · intro h t ph pt p hp
    rcases List.mem_cons.mp hp with rfl | hp
    · exact ph
    · exact pt p hp
  · intro k v pv
    exact pv

/-- Keys of an object entry list. -/
def keysOf (l : List (String × Json)) : List String :=
  l.map Prod.fst

/-- Boolean test that an entry list has pairwise-distinct keys (Python dicts
always do). -/
def nodupKeysB : List (String × Json) → Bool
  | [] => true
  | (k, _) :: rest => !(rest.any (fun q => q.1 == k)) && nodupKeysB rest

mutual

/-- A `Json` value is well formed when every object in it has
pairwise-distinct keys, which holds of every value reachable from a Python
`dict` (`json.load`, `response.json()`). -/
def Json.wf : Json → Bool
  | .null => true
  | .bool _ => true
  | .int _ => true
  | .str _ => true
  | .arr l => Json.wfList l
  | .obj l => nodupKeysB l && Json.wfEntries l

/-- All members of a list of JSON values are well formed. -/
def Json.wfList : List Json → Bool
  | [] => true
  | x :: xs => x.wf && Json.wfList xs

/-- All values of an object entry list are well formed. -/
def Json.wfEntries : List (String × Json) → Bool
  | [] => true
  | (_, v) :: rest => v.wf && Json.wfEntries rest

end

theorem nodupKeysB_iff (l : List (String × Json)) :
    nodupKeysB l = true ↔ (keysOf l).Nodup := by
  induction l with
  | nil => simp [nodupKeysB, keysOf]
  | cons p rest ih =>
    obtain ⟨k, v⟩ := p
    simp only [nodupKeysB, keysOf, List.map_cons, List.nodup_cons, Bool.and_eq_true,
      Bool.not_eq_true', List.any_eq_false, ih]
    constructor
    · rintro ⟨h1, h2⟩
      refine ⟨?_, h2⟩
      intro hk
      obtain ⟨q, hq, hqk⟩ := List.mem_map.mp hk
      exact absurd (h1 q hq) (by simp [beq_iff_eq, hqk])
    · rintro ⟨h1, h2⟩
      refine ⟨?_, h2⟩
      intro q hq
      by_contra hne
      exact h1 (List.mem_map.mpr ⟨q, hq, eq_of_beq hne⟩)

theorem Json.wfList_iff (l : List Json) :
    Json.wfList l = true ↔ ∀ x ∈ l, x.wf = true := by
  induction l with
  | nil => simp [Json.wfList]
  | cons x xs ih => simp [Json.wfList, ih]

theorem Json.wfEntries_iff (l : List (String × Json)) :
    Json.wfEntries l = true ↔ ∀ p ∈ l, p.2.wf = true := by
  induction l with
  | nil => simp [Json.wfEntries]
  | cons p rest ih =>
    obtain ⟨k, v⟩ := p
    simp only [Json.wfEntries, Bool.and_eq_true, ih, List.mem_cons]
    constructor
    · rintro ⟨h1, h2⟩ q hq
      rcases hq with rfl | hq
      · exact h1
      · exact h2 q hq
    · intro h
      exact ⟨h (k, v) (Or.inl rfl), fun q hq => h q (Or.inr hq)⟩

/-- Lexicographic comparison of strings by Unicode code point, as Python's
`str.__lt__` used by `sorted` (and hence by `json.dumps(..., sort_keys=True)`).
`charsLe as bs` is `as <= bs`. -/
def charsLe : List Char → List Char → Bool
  | [], _ => true
  | _ :: _, [] => false
  | a :: as, b :: bs =>
    if a.toNat < b.toNat then true
    else if b.toNat < a.toNat then false
    else charsLe as bs

theorem charsLe_total : ∀ as bs, charsLe as bs = true ∨ charsLe bs as = true := by
  intro as
  induction as with
  | nil => intro bs; exact Or.inl rfl
  | cons a as ih =>
    intro bs
    cases bs with
    | nil => exact Or.inr rfl
    | cons b bs =>
      by_cases hab : a.toNat < b.toNat
      · exact Or.inl (by simp [charsLe, hab])
      · by_cases hba : b.toNat < a.toNat
        · exact Or.inr (by simp [charsLe, hba])
        · rcases ih bs with h | h
          · exact Or.inl (by simp [charsLe, hab, hba, h])
          · exact Or.inr (by simp [charsLe, hab, hba, h])

theorem charsLe_antisymm : ∀ as bs, charsLe as bs = true → charsLe bs as = true → as = bs := by
  intro as
  induction as with
  | nil =>
    intro bs h1 h2
    cases bs with
    | nil => rfl
    | cons b bs => exact absurd h2 (by simp [charsLe])
  | cons a as ih =>
    intro bs h1 h2
    cases bs with
    | nil => exact absurd h1 (by simp [charsLe])
    | cons b bs =>
      by_cases hab : a.toNat < b.toNat
      · exact absurd h2 (by simp [charsLe, Nat.lt_asymm hab, hab])
      · by_cases hba : b.toNat < a.toNat
        · exact absurd h1 (by simp [charsLe, hab, hba])
        · have hval : a.toNat = b.toNat := Nat.le_antisymm (Nat.le_of_not_lt hba) (Nat.le_of_not_lt hab)
          have ha : a = b := by
            have := Char.eq_of_val_eq (by
              apply UInt32.eq_of_val_eq
              exact Fin.ext hval)
            exact this
          subst ha
          simp only [charsLe, if_neg (Nat.lt_irrefl _)] at h1 h2
          rw [ih bs h1 h2]

theorem charsLe_trans : ∀ as bs cs, charsLe as bs = true → charsLe bs cs = true →
    charsLe as cs = true := by
  intro as
  induction as with
  | nil => intro bs cs _ _; rfl
  | cons a as ih =>
    intro bs cs h1 h2
    cases bs with
    | nil => exact absurd h1 (by simp [charsLe])
    | cons b bs =>
      cases cs with
      | nil => exact absurd h2 (by simp [charsLe])
      | cons c cs =>
        simp only [charsLe] at h1 h2 ⊢
        by_cases hab : a.toNat < b.toNat
        · by_cases hbc : b.toNat < c.toNat
          · simp [Nat.lt_trans hab hbc]
          · by_cases hcb : c.toNat < b.toNat
            · simp [charsLe, hbc, hcb] at h2
            · have : b.toNat = c.toNat := Nat.le_antisymm (Nat.le_of_not_lt hcb) (Nat.le_of_not_lt hbc)
              simp [this ▸ hab]
        · by_cases hba : b.toNat < a.toNat
          · simp [hab, hba] at h1
          · have hv : a.toNat = b.toNat := Nat.le_antisymm (Nat.le_of_not_lt hba) (Nat.le_of_not_lt hab)
            simp only [hab, if_neg hba, if_false, if_true] at h1
            by_cases hbc : b.toNat < c.toNat
            · simp [hv ▸ hbc]
            · by_cases hcb : c.toNat < b.toNat
              · simp [hbc, hcb] at h2
              · simp only [hbc, if_neg hcb, if_false, if_true] at h2
                have hv2 : b.toNat = c.toNat := Nat.le_antisymm (Nat.le_of_not_lt hcb) (Nat.le_of_not_lt hbc)
                simp [hv ▸ hbc, hv ▸ hcb, ih bs cs h1 h2]

/-- Order on object entries used by `sorted(dict.items())` inside
`json.dumps(..., sort_keys=True)`: compare keys (keys of one dict are
distinct, so the tiebreaker on values is never consulted). -/
def entryLe (p q : String × Json) : Prop :=
  charsLe p.1.data q.1.data = true

instance : DecidableRel entryLe := fun p q =>
  inferInstanceAs (Decidable (charsLe p.1.data q.1.data = true))

instance : IsTotal (String × Json) entryLe :=
  ⟨fun p q => charsLe_total p.1.data q.1.data⟩

instance : IsTrans (String × Json) entryLe :=
  ⟨fun p q r => charsLe_trans p.1.data q.1.data r.1.data⟩

/-- Strict variant of `entryLe`, used to see that two sorted entry lists with
the same entries are equal. -/
def entryLtStrict (p q : String × Json) : Prop :=
  entryLe p q ∧ p.1 ≠ q.1

instance : IsAntisymm (String × Json) entryLtStrict := by
  refine ⟨fun p q h1 h2 => ?_⟩
  have hk : p.1 = q.1 :=
    String.ext (charsLe_antisymm p.1.data q.1.data h1.1 h2.1)
  exact absurd hk h1.2

/-- Model of Python `sorted` on dict items (stable sort by key). -/
def sortEntries (l : List (String × Json)) : List (String × Json) :=
  List.insertionSort entryLe l

theorem sortEntries_perm (l : List (String × Json)) : List.Perm (sortEntries l) l :=
  List.perm_insertionSort entryLe l

theorem sortEntries_sorted (l : List (String × Json)) :
    List.Sorted entryLe (sortEntries l) :=
  List.sorted_insertionSort entryLe l

theorem sorted_nodup_keys_eq {l₁ l₂ : List (String × Json)} (hp : List.Perm l₁ l₂)
    (hs₁ : List.Sorted entryLe l₁) (hs₂ : List.Sorted entryLe l₂)
    (hk : (keysOf l₁).Nodup) : l₁ = l₂ := by
  have hk₂ : (keysOf l₂).Nodup := (hp.map Prod.fst).nodup_iff.mp hk
  have hpw₁ : l₁.Pairwise (fun p q : String × Json => p.1 ≠ q.1) :=
    (List.pairwise_map).mp hk
  have hpw₂ : l₂.Pairwise (fun p q : String × Json => p.1 ≠ q.1) :=
    (List.pairwise_map).mp hk₂
  have hss₁ : List.Sorted entryLtStrict l₁ := hs₁.and hpw₁
  have hss₂ : List.Sorted entryLtStrict l₂ := hs₂.and hpw₂
  exact List.eq_of_perm_of_sorted hp hss₁ hss₂

theorem sortEntries_eq_of_perm {l₁ l₂ : List (String × Json)} (hp : List.Perm l₁ l₂)
    (hk : (keysOf l₁).Nodup) : sortEntries l₁ = sortEntries l₂ := by
  refine sorted_nodup_keys_eq ?_ (sortEntries_sorted l₁) (sortEntries_sorted l₂) ?_
  · exact (sortEntries_perm l₁).trans (hp.trans (sortEntries_perm l₂).symm)
  · exact ((sortEntries_perm l₁).map Prod.fst).nodup_iff.mpr hk

theorem charToNat_ofNat (n : Nat) (h : n.isValidChar) : (Char.ofNat n).toNat = n := by
  simp only [Char.ofNat, dif_pos h, Char.ofNatAux, Char.toNat, UInt32.toNat]
  simp

/-- Decimal digit character, `chr(48 + n)`. -/
def digitChar (n : Nat) : Char := Char.ofNat (48 + n)

/-- Boolean test for an ASCII decimal digit. -/
def isDigitC (c : Char) : Bool := 48 ≤ c.toNat && c.toNat ≤ 57

theorem digitChar_toNat (n : Nat) (h : n < 10) : (digitChar n).toNat = 48 + n :=
  charToNat_ofNat (48 + n) (Or.inl (by omega))

theorem isDigitC_digitChar (n : Nat) (h : n < 10) : isDigitC (digitChar n) = true := by
  simp [isDigitC, digitChar_toNat n h]
  omega

/-- Decimal digits of a natural number, most significant first; the model of
`repr(n)` used when `json.dump` writes an `int`.  The first argument is
recursion fuel (any value above `n` gives the digits). -/
def natToCharsAux : Nat → Nat → List Char
  | 0, _ => []
  | fuel + 1, n =>
    if n < 10 then [digitChar n]
    else natToCharsAux fuel (n / 10) ++ [digitChar (n % 10)]

/-- Decimal representation of a natural number. -/
def natToChars (n : Nat) : List Char := natToCharsAux (n + 1) n

/-- Decimal representation of a Python `int`, as serialized by `json.dump`. -/
def intToChars (n : Int) : List Char :=
  if n < 0 then '-' :: natToChars (-n).toNat else natToChars n.toNat

/-- Numeric value of a digit string (most significant digit first). -/
def digitsToNat (ds : List Char) : Nat :=
  ds.foldl (fun acc c => 10 * acc + (c.toNat - 48)) 0

theorem digitsToNat_append_digit (xs : List Char) (d : Char) :
    digitsToNat (xs ++ [d]) = 10 * digitsToNat xs + (d.toNat - 48) := by
  simp [digitsToNat, List.foldl_append]

theorem natToCharsAux_fuel_spec : ∀ fuel n, n < fuel →
    natToCharsAux fuel n ≠ [] ∧
    (∀ c ∈ natToCharsAux fuel n, isDigitC c = true) ∧
    digitsToNat (natToCharsAux fuel n) = n := by
  intro fuel
  induction fuel with
  | zero => intro n h; omega
  | succ fuel ih =>
    intro n h
    by_cases h10 : n < 10
    · refine ⟨by simp [natToCharsAux, h10], ?_, ?_⟩
      · intro c hc
        simp only [natToCharsAux, if_pos h10, List.mem_singleton] at hc
        exact hc ▸ isDigitC_digitChar n h10
      · simp [natToCharsAux, if_pos h10, digitsToNat, digitChar_toNat n h10]
    · have hrec : n / 10 < fuel := by omega
      obtain ⟨hne, hdig, hval⟩ := ih (n / 10) hrec
      refine ⟨by simp [natToCharsAux, h10], ?_, ?_⟩
      · intro c hc
        simp only [natToCharsAux, if_neg h10, List.mem_append, List.mem_singleton] at hc
        rcases hc with hc | rfl
        · exact hdig c hc
        · exact isDigitC_digitChar (n % 10) (Nat.mod_lt n (by omega))
      · simp only [natToCharsAux, if_neg h10, digitsToNat_append_digit, hval,
          digitChar_toNat (n % 10) (Nat.mod_lt n (by omega))]
        omega

theorem natToChars_ne_nil (n : Nat) : natToChars n ≠ [] :=
  (natToCharsAux_fuel_spec (n + 1) n (Nat.lt_succ_self n)).1

theorem natToChars_digits (n : Nat) : ∀ c ∈ natToChars n, isDigitC c = true :=
  (natToCharsAux_fuel_spec (n + 1) n (Nat.lt_succ_self n)).2.1

theorem natToChars_val (n : Nat) : digitsToNat (natToChars n) = n :=
  (natToCharsAux_fuel_spec (n + 1) n (Nat.lt_succ_self n)).2.2

theorem natToCharsAux_head_pos : ∀ fuel n, n < fuel → 0 < n →
    ∃ c cs, natToCharsAux fuel n = c :: cs ∧ isDigitC c = true ∧ c ≠ '0' := by
  intro fuel
  induction fuel with
  | zero => intro n h; omega
  | succ fuel ih =>
    intro n h hpos
    by_cases h10 : n < 10
    · refine ⟨digitChar n, [], by simp [natToCharsAux, h10], isDigitC_digitChar n h10, ?_⟩
      intro hc
      have hth := congrArg Char.toNat hc
      rw [digitChar_toNat n h10] at hth
      have h0 : ('0' : Char).toNat = 48 := rfl
      rw [h0] at hth
      omega
    · obtain ⟨c, cs, heq, hdig, hne⟩ := ih (n / 10) (by omega) (by omega)
      exact ⟨c, cs ++ [digitChar (n % 10)], by simp [natToCharsAux, h10, heq], hdig, hne⟩

/-- Head character of a printed natural number is a digit. -/
theorem natToChars_head_digit (n : Nat) :
    ∃ c cs, natToChars n = c :: cs ∧ isDigitC c = true := by
  rcases hn : natToChars n with _ | ⟨c, cs⟩
  · exact absurd hn (natToChars_ne_nil n)
  · exact ⟨c, cs, rfl, natToChars_digits n c (by rw [hn]; exact List.mem_cons_self c cs)⟩

theorem takeWhile_append_sat {p : Char → Bool} : ∀ (ds rest : List Char),
    (∀ c ∈ ds, p c = true) → (∀ c cs, rest = c :: cs → p c = false) →
    List.takeWhile p (ds ++ rest) = ds ∧ List.dropWhile p (ds ++ rest) = rest := by
  intro ds
  induction ds with
  | nil =>
    intro rest _ hrest
    cases rest with
    | nil => simp
    | cons c cs => simp [List.takeWhile, List.dropWhile, hrest c cs rfl]
  | cons d ds ih =>
    intro rest hds hrest
    have hd : p d = true := hds d (List.mem_cons_self d ds)
    have := ih rest (fun c hc => hds c (List.mem_cons_of_mem d hc)) hrest
    simp [List.takeWhile, List.dropWhile, hd, this.1, this.2]

/-- A character that switches integer parsing into float parsing in Python's
`json` number grammar (out of the integer-only model). -/
def floatFollows : List Char → Bool
  | [] => false
  | c :: _ => c = '.' || c = 'e' || c = 'E'

/-- Parse an unsigned JSON integer (grammar `0 | [1-9][0-9]*`), returning its
value and the unconsumed input.  Inputs whose number continues with a
fraction or exponent are floats and fall outside the model, so the parse
fails there. -/
def parseUNum : List Char → Option (Nat × List Char)
  | [] => none
  | c :: rest =>
    if c = '0' then
      if floatFollows rest then none else some (0, rest)
    else if isDigitC c then
      let ds := List.takeWhile isDigitC (c :: rest)
      let r := List.dropWhile isDigitC (c :: rest)
      if floatFollows r then none else some (digitsToNat ds, r)
    else none

/-- Parse a JSON number (integer subset), as Python's `json` `match_number`. -/
def parseNumber (s : List Char) : Option (Json × List Char) :=
  match s with
  | [] => none
  | c :: rest =>
    if c = '-' then (parseUNum rest).map (fun p => (Json.int (-(p.1 : Int)), p.2))
    else (parseUNum (c :: rest)).map (fun p => (Json.int (p.1 : Int), p.2))

/-- Characters allowed to follow a printed number inside printed JSON: end
of input, a separator comma, or the newline that `indent=4` places before a
closing bracket. -/
def sepOk : List Char → Prop
  | [] => True
  | c :: _ => c = ',' ∨ c = '\n'

theorem sepOk_floatFollows {rest : List Char} (h : sepOk rest) :
    floatFollows rest = false := by
  cases rest with
  | nil => rfl
  | cons c cs =>
    rcases h with rfl | rfl <;> rfl

theorem sepOk_head_not_digit {c : Char} {cs : List Char} (h : sepOk (c :: cs)) :
    isDigitC c = false := by
  rcases h with rfl | rfl <;> rfl

theorem parseUNum_print (n : Nat) (rest : List Char) (hrest : sepOk rest) :
    parseUNum (natToChars n ++ rest) = some (n, rest) := by
  by_cases h0 : n = 0
  · subst h0
    have : natToChars 0 = ['0'] := rfl
    rw [this]
    simp [parseUNum, sepOk_floatFollows hrest]
  · obtain ⟨c, cs, heq, hdig, hne0⟩ :=
      natToCharsAux_head_pos (n + 1) n (Nat.lt_succ_self n) (by omega)
    have heq' : natToChars n = c :: cs := heq
    have hw := takeWhile_append_sat (c :: cs) rest
      (fun x hx => natToChars_digits n x (by rw [heq']; exact hx))
      (fun x xs hxs => by
        subst hxs
        exact sepOk_head_not_digit hrest)
    rw [heq']
    show parseUNum (c :: (cs ++ rest)) = some (n, rest)
    simp only [parseUNum, if_neg hne0, if_pos hdig]
    have hta : List.takeWhile isDigitC (c :: (cs ++ rest)) = c :: cs := by
      rw [← List.cons_append]; exact hw.1
    have hda : List.dropWhile isDigitC (c :: (cs ++ rest)) = rest := by
      rw [← List.cons_append]; exact hw.2
    rw [hta, hda, sepOk_floatFollows hrest]
    simp only [Bool.false_eq_true, if_false]
    rw [← heq', natToChars_val n]

theorem intToChars_head (n : Int) :
    ∃ c cs, intToChars n = c :: cs ∧ (c = '-' ∨ isDigitC c = true) := by
  by_cases hneg : n < 0
  · exact ⟨'-', natToChars (-n).toNat, by simp [intToChars, hneg], Or.inl rfl⟩
  · obtain ⟨c, cs, heq, hdig⟩ := natToChars_head_digit n.toNat
    exact ⟨c, cs, by simp [intToChars, hneg, heq], Or.inr hdig⟩

theorem parseNumber_print (n : Int) (rest : List Char) (hrest : sepOk rest) :
    parseNumber (intToChars n ++ rest) = some (Json.int n, rest) := by
  by_cases hneg : n < 0
  · have hm : intToChars n = '-' :: natToChars (-n).toNat := by simp [intToChars, hneg]
    rw [hm]
    have hcast : (((-n).toNat : Int)) = -n := Int.toNat_of_nonneg (by omega)
    show parseNumber ('-' :: (natToChars (-n).toNat ++ rest)) = some (Json.int n, rest)
    have hstep : parseNumber ('-' :: (natToChars (-n).toNat ++ rest)) =
        (parseUNum (natToChars (-n).toNat ++ rest)).map
          (fun p => (Json.int (-(p.1 : Int)), p.2)) := by
      simp [parseNumber]
    rw [hstep, parseUNum_print (-n).toNat rest hrest]
    simp [hcast]
  · have hteq : intToChars n = natToChars n.toNat := by simp [intToChars, hneg]
    obtain ⟨c, cs, heq, hdig⟩ := natToChars_head_digit n.toNat
    have hcne : ¬ c = '-' := by
      intro hc
      subst hc
      simp only [isDigitC, Bool.and_eq_true, decide_eq_true_eq] at hdig
      have h45 : ('-' : Char).toNat = 45 := rfl
      omega
    have hcast : ((n.toNat : Int)) = n := Int.toNat_of_nonneg (by omega)
    rw [hteq, heq]
    show parseNumber (c :: (cs ++ rest)) = some (Json.int n, rest)
    have hstep : parseNumber (c :: (cs ++ rest)) =
        (parseUNum (c :: (cs ++ rest))).map (fun p => (Json.int (p.1 : Int), p.2)) := by
      simp only [parseNumber, if_neg hcne]
    rw [hstep, ← List.cons_append, ← heq, parseUNum_print n.toNat rest hrest]
    simp [hcast]

/-- Lowercase hexadecimal digit, as Python's `'%04x'` formatting. -/
def hexDigitChar (n : Nat) : Char :=
  if n < 10 then Char.ofNat (48 + n) else Char.ofNat (87 + n)

/-- Value of a hexadecimal digit character (`int(c, 16)` accepts both cases). -/
def hexVal (c : Char) : Option Nat :=
  if 48 ≤ c.toNat ∧ c.toNat ≤ 57 then some (c.toNat - 48)
  else if 97 ≤ c.toNat ∧ c.toNat ≤ 102 then some (c.toNat - 87)
  else if 65 ≤ c.toNat ∧ c.toNat ≤ 70 then some (c.toNat - 55)
  else none

theorem hexVal_hexDigitChar : ∀ d, d < 16 → hexVal (hexDigitChar d) = some d := by
  decide

/-- Value of four hexadecimal digits (`int(s[:4], 16)` in Python's `json`). -/
def hex4Val (a b c d : Char) : Option Nat :=
  match hexVal a, hexVal b, hexVal c, hexVal d with
  | some x, some y, some z, some w => some (4096 * x + 256 * y + 16 * z + w)
  | _, _, _, _ => none

/-- Escape one character as `json.dumps(..., ensure_ascii=False)` does
(`ESCAPE` pattern `[\\"]|[\x00-\x1f]`): backslash, quote and the named
control characters get two-character escapes, remaining control characters
get `\u00xx`, everything else passes through. -/
def escChar (c : Char) : List Char :=
  if c = '\\' then ['\\', '\\']
  else if c = '"' then ['\\', '"']
  else if c = '\x08' then ['\\', 'b']
  else if c = '\t' then ['\\', 't']
  else if c = '\n' then ['\\', 'n']
  else if c = '\x0c' then ['\\', 'f']
  else if c = '\x0d' then ['\\', 'r']
  else if c.toNat < 32 then
    ['\\', 'u', '0', '0', hexDigitChar (c.toNat / 16), hexDigitChar (c.toNat % 16)]
  else [c]

/-- Escape a whole string (body of a JSON string literal). -/
def escChars : List Char → List Char
  | [] => []
  | c :: cs => escChar c ++ escChars cs

/-- Serialized JSON string literal. -/
def dumpStr (s : String) : List Char := '"' :: escChars s.data ++ ['"']

/-- Named two-character escapes accepted by Python's `json` string scanner
(`BACKSLASH` table). -/
def escMap (e : Char) : Option Char :=
  if e = '"' then some '"'
  else if e = '\\' then some '\\'
  else if e = '/' then some '/'
  else if e = 'b' then some '\x08'
  else if e = 'f' then some '\x0c'
  else if e = 'n' then some '\n'
  else if e = 'r' then some '\x0d'
  else if e = 't' then some '\t'
  else none

mutual

/-- Scan a JSON string body after the opening quote (Python `py_scanstring`
with `strict=True`): returns the decoded characters and the input after the
closing quote.  Lone surrogate escapes decode to Python surrogate code
points, which have no Lean `Char` counterpart, so the model rejects them. -/
def parseStrBody : List Char → Option (List Char × List Char)
  | [] => none
  | c :: rest =>
    if c = '"' then some ([], rest)
    else if c = '\\' then parseEscape rest
    else if c.toNat < 32 then none
    else (parseStrBody rest).map (fun p => (c :: p.1, p.2))

/-- Decode one backslash escape and continue scanning the string body. -/
def parseEscape : List Char → Option (List Char × List Char)
  | [] => none
  | e :: rest =>
    if e = 'u' then parseHexEscape rest
    else (escMap e).bind (fun c => (parseStrBody rest).map (fun p => (c :: p.1, p.2)))

/-- Decode the four hex digits of a `\uXXXX` escape; a high surrogate must
be completed by a following low-surrogate escape. -/
def parseHexEscape : List Char → Option (List Char × List Char)
  | a :: b :: c :: d :: rest2 =>
    (hex4Val a b c d).bind (fun n =>
      if 55296 ≤ n ∧ n ≤ 56319 then parseLowSurrogate n rest2
      else if 56320 ≤ n ∧ n ≤ 57343 then none
      else (parseStrBody rest2).map (fun p => (Char.ofNat n :: p.1, p.2)))
  | _ => none

/-- Decode the low-surrogate escape following a high surrogate `n` and
combine the pair into one code point. -/
def parseLowSurrogate (n : Nat) : List Char → Option (List Char × List Char)
  | b1 :: u1 :: a2 :: b2 :: c2 :: d2 :: rest3 =>
    if b1 = '\\' ∧ u1 = 'u' then
      (hex4Val a2 b2 c2 d2).bind (fun n2 =>
        if 56320 ≤ n2 ∧ n2 ≤ 57343 then
          (parseStrBody rest3).map (fun p =>
            (Char.ofNat (65536 + (n - 55296) * 1024 + (n2 - 56320)) :: p.1, p.2))
        else none)
    else none
  | _ => none

end

theorem parseStrBody_quote (s : List Char) :
    parseStrBody ('"' :: s) = some ([], s) := rfl

theorem parseStrBody_backslash (s : List Char) :
    parseStrBody ('\\' :: s) = parseEscape s := rfl

theorem parseStrBody_plain (c : Char) (s : List Char) (h2 : ¬ c = '"') (h1 : ¬ c = '\\')
    (h8 : ¬ c.toNat < 32) :
    parseStrBody (c :: s) = (parseStrBody s).map (fun p => (c :: p.1, p.2)) := by
  simp only [parseStrBody, if_neg h2, if_neg h1, if_neg h8]

theorem parseEscape_named (e c : Char) (hu : ¬ e = 'u') (he : escMap e = some c)
    (s : List Char) :
    parseEscape (e :: s) = (parseStrBody s).map (fun p => (c :: p.1, p.2)) := by
  simp only [parseEscape, if_neg hu, he, Option.some_bind]

theorem parseStrBody_escChars : ∀ (s rest : List Char),
    parseStrBody (escChars s ++ ('"' :: rest)) = some (s, rest) := by
  intro s
  induction s with
  | nil =>
    intro rest
    rfl
  | cons c cs ih =>
    intro rest
    have hstep : escChars (c :: cs) ++ ('"' :: rest) =
        escChar c ++ (escChars cs ++ ('"' :: rest)) := by
      rw [show escChars (c :: cs) = escChar c ++ escChars cs from rfl, List.append_assoc]
    rw [hstep]
    by_cases h1 : c = '\\'
    · subst h1
      rw [show escChar '\\' = ['\\', '\\'] from rfl]
      show parseStrBody ('\\' :: ('\\' :: (escChars cs ++ '"' :: rest))) = _
      rw [parseStrBody_backslash, parseEscape_named '\\' '\\' (by decide) rfl, ih rest]
      rfl
    · by_cases h2 : c = '"'
      · subst h2
        rw [show escChar '"' = ['\\', '"'] from rfl]
        show parseStrBody ('\\' :: ('"' :: (escChars cs ++ '"' :: rest))) = _
        rw [parseStrBody_backslash, parseEscape_named '"' '"' (by decide) rfl, ih rest]
        rfl
      · by_cases h3 : c = '\x08'
        · subst h3
          rw [show escChar '\x08' = ['\\', 'b'] from rfl]
          show parseStrBody ('\\' :: ('b' :: (escChars cs ++ '"' :: rest))) = _
          rw [parseStrBody_backslash, parseEscape_named 'b' '\x08' (by decide) rfl, ih rest]
          rfl
        · by_cases h4 : c = '\t'
          · subst h4
            rw [show escChar '\t' = ['\\', 't'] from rfl]
            show parseStrBody ('\\' :: ('t' :: (escChars cs ++ '"' :: rest))) = _
            rw [parseStrBody_backslash, parseEscape_named 't' '\t' (by decide) rfl, ih rest]
            rfl
          · by_cases h5 : c = '\n'
            · subst h5
              rw [show escChar '\n' = ['\\', 'n'] from rfl]
              show parseStrBody ('\\' :: ('n' :: (escChars cs ++ '"' :: rest))) = _
              rw [parseStrBody_backslash, parseEscape_named 'n' '\n' (by decide) rfl, ih rest]
              rfl
            · by_cases h6 : c = '\x0c'
              · subst h6
                rw [show escChar '\x0c' = ['\\', 'f'] from rfl]
                show parseStrBody ('\\' :: ('f' :: (escChars cs ++ '"' :: rest))) = _
                rw [parseStrBody_backslash, parseEscape_named 'f' '\x0c' (by decide) rfl,
                  ih rest]
                rfl
              · by_cases h7 : c = '\x0d'
                · subst h7
                  rw [show escChar '\x0d' = ['\\', 'r'] from rfl]
                  show parseStrBody ('\\' :: ('r' :: (escChars cs ++ '"' :: rest))) = _
                  rw [parseStrBody_backslash, parseEscape_named 'r' '\x0d' (by decide) rfl,
                    ih rest]
                  rfl
                · by_cases h8 : c.toNat < 32
                  · have hesc : escChar c =
                        ['\\', 'u', '0', '0', hexDigitChar (c.toNat / 16),
                          hexDigitChar (c.toNat % 16)] := by
                      simp [escChar, h1, h2, h3, h4, h5, h6, h7, h8]
                    rw [hesc]
                    show parseStrBody ('\\' :: ('u' :: '0' :: '0' ::
                      hexDigitChar (c.toNat / 16) :: hexDigitChar (c.toNat % 16) ::
                      (escChars cs ++ '"' :: rest))) = _
                    rw [parseStrBody_backslash]
                    have hhi : hexVal (hexDigitChar (c.toNat / 16)) = some (c.toNat / 16) :=
                      hexVal_hexDigitChar (c.toNat / 16) (by omega)
                    have hlo : hexVal (hexDigitChar (c.toNat % 16)) = some (c.toNat % 16) :=
                      hexVal_hexDigitChar (c.toNat % 16) (by omega)
                    have hx0 : hexVal '0' = some 0 := by decide
                    have hfour : hex4Val '0' '0' (hexDigitChar (c.toNat / 16))
                        (hexDigitChar (c.toNat % 16)) = some (c.toNat) := by
                      simp only [hex4Val, hx0, hhi, hlo]
                      have harith : 4096 * 0 + 256 * 0 + 16 * (c.toNat / 16) + c.toNat % 16 =
                          c.toNat := by omega
                      rw [harith]
                    have hu : parseEscape ('u' :: ('0' :: '0' ::
                        hexDigitChar (c.toNat / 16) :: hexDigitChar (c.toNat % 16) ::
                        (escChars cs ++ '"' :: rest))) = parseHexEscape ('0' :: '0' ::
                        hexDigitChar (c.toNat / 16) :: hexDigitChar (c.toNat % 16) ::
                        (escChars cs ++ '"' :: rest)) := by
                      simp only [parseEscape, eq_self_iff_true, if_true]
                    rw [hu]
                    simp only [parseHexEscape, hfour, Option.some_bind]
                    have hs1 : ¬ (55296 ≤ c.toNat ∧ c.toNat ≤ 56319) := by omega
                    have hs2 : ¬ (56320 ≤ c.toNat ∧ c.toNat ≤ 57343) := by omega
                    rw [if_neg hs1, if_neg hs2, ih rest, Option.map_some', Char.ofNat_toNat]
                  · have hesc : escChar c = [c] := by
                      simp [escChar, h1, h2, h3, h4, h5, h6, h7, h8]
                    rw [hesc]
                    show parseStrBody (c :: (escChars cs ++ '"' :: rest)) = _
                    rw [parseStrBody_plain c _ h2 h1 h8, ih rest, Option.map_some']

/-- Indentation blanks. -/
def nSpaces (n : Nat) : List Char := List.replicate n ' '

mutual

/-- Serialize a JSON value as `json.dump(x, f, indent=4, ensure_ascii=False)`
does in `downloadList` (level-aware indentation, separators `","`/`": "`). -/
def dumpVal4 : Nat → Json → List Char
  | _, .null => "null".data
  | _, .bool true => "true".data
  | _, .bool false => "false".data
  | _, .int n => intToChars n
  | _, .str s => dumpStr s
  | _, .arr [] => "[]".data
  | lvl, .arr (x :: xs) =>
    '[' :: '\n' :: nSpaces (4 * (lvl + 1)) ++ dumpElems4 (lvl + 1) (x :: xs) ++
      '\n' :: nSpaces (4 * lvl) ++ [']']
  | _, .obj [] => "{}".data
  | lvl, .obj (e :: es) =>
    '{' :: '\n' :: nSpaces (4 * (lvl + 1)) ++ dumpEntries4 (lvl + 1) (e :: es) ++
      '\n' :: nSpaces (4 * lvl) ++ ['}']

/-- Serialize array elements at one indentation level. -/
def dumpElems4 : Nat → List Json → List Char
  | _, [] => []
  | lvl, [x] => dumpVal4 lvl x
  | lvl, x :: y :: ys =>
    dumpVal4 lvl x ++ ',' :: '\n' :: nSpaces (4 * lvl) ++ dumpElems4 lvl (y :: ys)

/-- Serialize object entries at one indentation level. -/
def dumpEntries4 : Nat → List (String × Json) → List Char
  | _, [] => []
  | lvl, [(k, v)] => dumpStr k ++ ':' :: ' ' :: dumpVal4 lvl v
  | lvl, (k, v) :: e :: es =>
    dumpStr k ++ ':' :: ' ' :: dumpVal4 lvl v ++ ',' :: '\n' :: nSpaces (4 * lvl) ++
      dumpEntries4 lvl (e :: es)

end

/-- Escape one character as `json.dumps` with the default `ensure_ascii=True`
does (`ESCAPE_ASCII` pattern: backslash, quote, and everything outside
`0x20..0x7e`; astral code points become surrogate pairs). -/
def escCharA (c : Char) : List Char :=
  if c = '\\' then ['\\', '\\']
  else if c = '"' then ['\\', '"']
  else if c = '\x08' then ['\\', 'b']
  else if c = '\t' then ['\\', 't']
  else if c = '\n' then ['\\', 'n']
  else if c = '\x0c' then ['\\', 'f']
  else if c = '\x0d' then ['\\', 'r']
  else if c.toNat < 32 ∨ 126 < c.toNat then
    if c.toNat < 65536 then
      '\\' :: 'u' :: [hexDigitChar (c.toNat / 4096 % 16), hexDigitChar (c.toNat / 256 % 16),
        hexDigitChar (c.toNat / 16 % 16), hexDigitChar (c.toNat % 16)]
    else
      '\\' :: 'u' :: [hexDigitChar ((55296 + (c.toNat - 65536) / 1024) / 4096 % 16),
        hexDigitChar ((55296 + (c.toNat - 65536) / 1024) / 256 % 16),
        hexDigitChar ((55296 + (c.toNat - 65536) / 1024) / 16 % 16),
        hexDigitChar ((55296 + (c.toNat - 65536) / 1024) % 16)] ++
      '\\' :: 'u' :: [hexDigitChar ((56320 + (c.toNat - 65536) % 1024) / 4096 % 16),
        hexDigitChar ((56320 + (c.toNat - 65536) % 1024) / 256 % 16),
        hexDigitChar ((56320 + (c.toNat - 65536) % 1024) / 16 % 16),
        hexDigitChar ((56320 + (c.toNat - 65536) % 1024) % 16)]
  else [c]

/-- Escape a whole string with ASCII-only output. -/
def escCharsA : List Char → List Char
  | [] => []
  | c :: cs => escCharA c ++ escCharsA cs

/-- ASCII-escaped JSON string literal. -/
def dumpStrA (s : String) : List Char := '"' :: escCharsA s.data ++ ['"']

mutual

/-- Serialize a JSON value as `json.dumps(x)` with default separators
`", "` and `": "` and `ensure_ascii=True`; combined with `sortKeysJson` this
is the canonical serialization hashed by `hashJSON`. -/
def dumpValC : Json → List Char
  | .null => "null".data
  | .bool true => "true".data
  | .bool false => "false".data
  | .int n => intToChars n
  | .str s => dumpStrA s
  | .arr l => '[' :: dumpElemsC l ++ [']']
  | .obj l => '{' :: dumpEntriesC l ++ ['}']

/-- Serialize array elements, compact form. -/
def dumpElemsC : List Json → List Char
  | [] => []
  | [x] => dumpValC x
  | x :: y :: ys => dumpValC x ++ ',' :: ' ' :: dumpElemsC (y :: ys)

/-- Serialize object entries, compact form. -/
def dumpEntriesC : List (String × Json) → List Char
  | [] => []
  | [(k, v)] => dumpStrA k ++ ':' :: ' ' :: dumpValC v
  | (k, v) :: e :: es =>
    dumpStrA k ++ ':' :: ' ' :: dumpValC v ++ ',' :: ' ' :: dumpEntriesC (e :: es)

end

mutual

/-- Recursively sort every object's entries by key, the canonicalization
performed during serialization by `json.dumps(..., sort_keys=True)`. -/
def sortKeysJson : Json → Json
  | .null => .null
  | .bool b => .bool b
  | .int n => .int n
  | .str s => .str s
  | .arr l => .arr (sortKeysList l)
  | .obj l => .obj (sortEntries (sortKeysEntries l))

/-- Map `sortKeysJson` over array elements. -/
def sortKeysList : List Json → List Json
  | [] => []
  | x :: xs => sortKeysJson x :: sortKeysList xs

/-- Map `sortKeysJson` over the values of object entries. -/
def sortKeysEntries : List (String × Json) → List (String × Json)
  | [] => []
  | (k, v) :: rest => (k, sortKeysJson v) :: sortKeysEntries rest

end

/-- Canonical serialization `json.dumps(jsonData, sort_keys=True)` used by
`hashJSON`: keys sorted at every level, default separators, ASCII escapes. -/
def dumpSorted (j : Json) : List Char := dumpValC (sortKeysJson j)

/-- JSON whitespace characters skipped by Python's decoder (` \t\n\r`). -/
def isWsC (c : Char) : Bool := c == ' ' || c == '\t' || c == '\n' || c == '\x0d'

/-- Skip leading whitespace. -/
def skipWs (s : List Char) : List Char := s.dropWhile isWsC

/-- Expect a literal continuation (e.g. `ull` after `n`). -/
def expectLit : List Char → List Char → Option (List Char)
  | [], s => some s
  | _ :: _, [] => none
  | c :: cs, x :: xs => if x = c then expectLit cs xs else none

/-- Insert a key/value pair as `dict` assignment does: replace in place if
the key exists, append otherwise. -/
def upsert : List (String × Json) → String → Json → List (String × Json)
  | [], k, v => [(k, v)]
  | (k0, v0) :: rest, k, v =>
    if k0 = k then (k0, v) :: rest else (k0, v0) :: upsert rest k v

/-- Build a `dict` from parsed key/value pairs (`dict(pairs)` at the end of
Python's `JSONObject`): on duplicate keys the last value wins, at the first
key's position. -/
def dictify (pairs : List (String × Json)) : List (String × Json) :=
  pairs.foldl (fun acc p => upsert acc p.1 p.2) []

mutual

/-- Recursive-descent JSON value parser (Python's `json.scanner` for the
integer subset).  The first argument is recursion fuel; `jsonParse` passes
more fuel than any input can consume, so the `0` case is unreachable from
the public entry point. -/
def parseVal : Nat → List Char → Option (Json × List Char)
  | 0, _ => none
  | fuel + 1, s0 =>
    match skipWs s0 with
    | [] => none
    | c :: rest =>
      if c = '"' then
        (parseStrBody rest).map (fun p => (Json.str (String.mk p.1), p.2))
      else if c = '{' then
        match skipWs rest with
        | [] => none
        | c2 :: rest2 =>
          if c2 = '}' then some (.obj [], rest2)
          else
            (parseMember fuel (c2 :: rest2)).bind (fun t =>
              (parseObjTail fuel t.2.2).map (fun q =>
                (Json.obj (dictify ((t.1, t.2.1) :: q.1)), q.2)))
      else if c = '[' then
        match skipWs rest with
        | [] => none
        | c2 :: rest2 =>
          if c2 = ']' then some (.arr [], rest2)
          else
            (parseVal fuel (c2 :: rest2)).bind (fun p =>
              (parseArrTail fuel p.2).map (fun q => (Json.arr (p.1 :: q.1), q.2)))
      else if c = 'n' then (expectLit "ull".data rest).map (fun r => (Json.null, r))
      else if c = 't' then (expectLit "rue".data rest).map (fun r => (Json.bool true, r))
      else if c = 'f' then (expectLit "alse".data rest).map (fun r => (Json.bool false, r))
      else parseNumber (c :: rest)

/-- Parse one `"key": value` object member. -/
def parseMember : Nat → List Char → Option (String × Json × List Char)
  | 0, _ => none
  | fuel + 1, s =>
    match skipWs s with
    | [] => none
    | c :: rest =>
      if c = '"' then
        (parseStrBody rest).bind (fun kp =>
          match skipWs kp.2 with
          | [] => none
          | c2 :: rest2 =>
            if c2 = ':' then
              (parseVal fuel rest2).map (fun vp => (String.mk kp.1, vp.1, vp.2))
            else none)
      else none

/-- Parse the continuation of an array after one element: either the closing
bracket or a comma followed by more elements. -/
def parseArrTail : Nat → List Char → Option (List Json × List Char)
  | 0, _ => none
  | fuel + 1, s =>
    match skipWs s with
    | [] => none
    | c :: rest =>
      if c = ']' then some ([], rest)
      else if c = ',' then
        (parseVal fuel rest).bind (fun p =>
          (parseArrTail fuel p.2).map (fun q => (p.1 :: q.1, q.2)))
      else none

/-- Parse the continuation of an object after one member. -/
def parseObjTail : Nat → List Char → Option (List (String × Json) × List Char)
  | 0, _ => none
  | fuel + 1, s =>
    match skipWs s with
    | [] => none
    | c :: rest =>
      if c = '}' then some ([], rest)
      else if c = ',' then
        (parseMember fuel rest).bind (fun t =>
          (parseObjTail fuel t.2.2).map (fun q => ((t.1, t.2.1) :: q.1, q.2)))
      else none

end

/-- Parse a whole JSON document (`json.load` / `json.loads` /
`response.json()` on the integer subset): one value, then only whitespace up
to the end of input; anything else raises `JSONDecodeError`, modelled as
`none`. -/
def jsonParse (s : String) : Option Json :=
  match parseVal (s.data.length + 1) s.data with
  | some (j, rest) => if skipWs rest = [] then some j else none
  | none => none

theorem skipWs_not_ws {c : Char} (t : List Char) (h : isWsC c = false) :
    skipWs (c :: t) = c :: t := by
  simp [skipWs, List.dropWhile, h]

theorem skipWs_ws {c : Char} (t : List Char) (h : isWsC c = true) :
    skipWs (c :: t) = skipWs t := by
  simp [skipWs, List.dropWhile, h]

theorem skipWs_newline (t : List Char) : skipWs ('\n' :: t) = skipWs t :=
  skipWs_ws t (by decide)

theorem skipWs_nSpaces (n : Nat) (t : List Char) : skipWs (nSpaces n ++ t) = skipWs t := by
  induction n with
  | zero => rfl
  | succ n ih =>
    have : nSpaces (n + 1) = ' ' :: nSpaces n := by
      simp [nSpaces, List.replicate]
    rw [this, List.cons_append, skipWs_ws _ (by decide), ih]

theorem skipWs_idem (s : List Char) : skipWs (skipWs s) = skipWs s := by
  induction s with
  | nil => rfl
  | cons c t ih =>
    by_cases h : isWsC c = true
    · rw [skipWs_ws t h, ih]
    · have h' : isWsC c = false := by
        cases hc : isWsC c
        · rfl
        · exact absurd hc h
      rw [skipWs_not_ws t h', skipWs_not_ws t h']

theorem parseVal_ws_invariant (fuel : Nat) (s t : List Char) (h : skipWs s = skipWs t) :
    parseVal fuel s = parseVal fuel t := by
  cases fuel with
  | zero => rfl
  | succ f => simp only [parseVal, h]

theorem intToChars_head_facts (n : Int) :
    ∃ c cs, intToChars n = c :: cs ∧ isWsC c = false ∧
      ¬ c = '"' ∧ ¬ c = '{' ∧ ¬ c = '[' ∧ ¬ c = 'n' ∧ ¬ c = 't' ∧ ¬ c = 'f' ∧
      ¬ c = ']' := by
  obtain ⟨c, cs, heq, hc⟩ := intToChars_head n
  refine ⟨c, cs, heq, ?_⟩
  have hv : c.toNat = 45 ∨ (48 ≤ c.toNat ∧ c.toNat ≤ 57) := by
    rcases hc with rfl | hdig
    · exact Or.inl rfl
    · simp only [isDigitC, Bool.and_eq_true, decide_eq_true_eq] at hdig
      exact Or.inr hdig
  have hne : ∀ d : Char, c.toNat ≠ d.toNat → ¬ c = d := by
    intro d hd hcd
    exact hd (congrArg Char.toNat hcd)
  refine ⟨?_, ?_, ?_, ?_, ?_, ?_, ?_, ?_⟩
  · cases hw : isWsC c
    · rfl
    · exfalso
      simp only [isWsC, Bool.or_eq_true, beq_iff_eq] at hw
      rcases hw with ((rfl | rfl) | rfl) | rfl <;> revert hv <;> decide
  · exact hne '"' (by rw [show ('"' : Char).toNat = 34 from rfl]; omega)
  · exact hne '{' (by rw [show ('{' : Char).toNat = 123 from rfl]; omega)
  · exact hne '[' (by rw [show ('[' : Char).toNat = 91 from rfl]; omega)
  · exact hne 'n' (by rw [show ('n' : Char).toNat = 110 from rfl]; omega)
  · exact hne 't' (by rw [show ('t' : Char).toNat = 116 from rfl]; omega)
  · exact hne 'f' (by rw [show ('f' : Char).toNat = 102 from rfl]; omega)
  · exact hne ']' (by rw [show (']' : Char).toNat = 93 from rfl]; omega)

theorem dumpVal4_cons (lvl : Nat) (j : Json) :
    ∃ c cs, dumpVal4 lvl j = c :: cs ∧ isWsC c = false ∧ ¬ c = ']' := by
  cases j with
  | null => exact ⟨'n', "ull".data, rfl, by decide, by decide⟩
  | bool b =>
    cases b with
    | true => exact ⟨'t', "rue".data, rfl, by decide, by decide⟩
    | false => exact ⟨'f', "alse".data, rfl, by decide, by decide⟩
  | int n =>
    obtain ⟨c, cs, heq, hw, _, _, _, _, _, _, hb⟩ := intToChars_head_facts n
    exact ⟨c, cs, heq, hw, hb⟩
  | str s => exact ⟨'"', escChars s.data ++ ['"'], rfl, by decide, by decide⟩
  | arr l =>
    cases l with
    | nil => exact ⟨'[', [']'], rfl, by decide, by decide⟩
    | cons x xs => exact ⟨'[', _, rfl, by decide, by decide⟩
  | obj l =>
    cases l with
    | nil => exact ⟨'{', ['}'], rfl, by decide, by decide⟩
    | cons e es => exact ⟨'{', _, rfl, by decide, by decide⟩

theorem skipWs_dump (lvl : Nat) (j : Json) (t : List Char) :
    skipWs (dumpVal4 lvl j ++ t) = dumpVal4 lvl j ++ t := by
  obtain ⟨c, cs, heq, hw, _⟩ := dumpVal4_cons lvl j
  rw [heq, List.cons_append, skipWs_not_ws _ hw]

mutual

/-- Fuel sufficient for `parseVal` to parse the printed form of a value. -/
def jfuel : Json → Nat
  | .null => 1
  | .bool _ => 1
  | .int _ => 1
  | .str _ => 1
  | .arr l => 2 + jfuelList l
  | .obj l => 2 + jfuelEntries l

/-- Fuel for the elements of an array. -/
def jfuelList : List Json → Nat
  | [] => 0
  | x :: xs => jfuel x + 2 + jfuelList xs

/-- Fuel for the entries of an object. -/
def jfuelEntries : List (String × Json) → Nat
  | [] => 0
  | (_, v) :: rest => jfuel v + 3 + jfuelEntries rest

end

/-- Text of the array elements after the first one (separator-prefixed). -/
def elemsSep (lvl : Nat) : List Json → List Char
  | [] => []
  | y :: ys => ',' :: '\n' :: nSpaces (4 * lvl) ++ dumpVal4 lvl y ++ elemsSep lvl ys

/-- Text of the object entries after the first one (separator-prefixed). -/
def entriesSep (lvl : Nat) : List (String × Json) → List Char
  | [] => []
  | (k, v) :: es =>
    ',' :: '\n' :: nSpaces (4 * lvl) ++ dumpStr k ++ ':' :: ' ' :: dumpVal4 lvl v ++
      entriesSep lvl es

theorem dumpElems4_split (lvl : Nat) : ∀ (x : Json) (xs : List Json),
    dumpElems4 lvl (x :: xs) = dumpVal4 lvl x ++ elemsSep lvl xs := by
  intro x xs
  induction xs generalizing x with
  | nil => simp [dumpElems4, elemsSep]
  | cons y ys ih =>
    show dumpVal4 lvl x ++ ',' :: '\n' :: nSpaces (4 * lvl) ++ dumpElems4 lvl (y :: ys) = _
    rw [ih y]
    simp [elemsSep]

theorem dumpEntries4_split (lvl : Nat) : ∀ (k : String) (v : Json)
    (es : List (String × Json)),
    dumpEntries4 lvl ((k, v) :: es) =
      dumpStr k ++ ':' :: ' ' :: dumpVal4 lvl v ++ entriesSep lvl es := by
  intro k v es
  induction es generalizing k v with
  | nil => simp [dumpEntries4, entriesSep]
  | cons e es ih =>
    obtain ⟨k2, v2⟩ := e
    show dumpStr k ++ ':' :: ' ' :: dumpVal4 lvl v ++ ',' :: '\n' :: nSpaces (4 * lvl) ++
        dumpEntries4 lvl ((k2, v2) :: es) = _
    rw [ih k2 v2]
    simp [entriesSep]

theorem upsert_absent (k : String) (v : Json) : ∀ acc : List (String × Json),
    k ∉ keysOf acc → upsert acc k v = acc ++ [(k, v)] := by
  intro acc
  induction acc with
  | nil => intro _; rfl
  | cons p rest ih =>
    obtain ⟨k0, v0⟩ := p
    intro hk
    simp only [keysOf, List.map_cons, List.mem_cons, not_or] at hk
    have hne : ¬ k0 = k := fun h => hk.1 (h ▸ rfl)
    simp only [upsert, if_neg hne, List.cons_append, List.cons.injEq, true_and]
    exact ih (by simpa [keysOf] using hk.2)

theorem dictify_go : ∀ (l acc : List (String × Json)),
    (keysOf (acc ++ l)).Nodup →
    l.foldl (fun acc p => upsert acc p.1 p.2) acc = acc ++ l := by
  intro l
  induction l with
  | nil =>
    intro acc _
    simp
  | cons p rest ih =>
    obtain ⟨k, v⟩ := p
    intro acc hnd
    have hk : k ∉ keysOf acc := by
      intro hmem
      have hnd' : (keysOf acc ++ k :: keysOf rest).Nodup := by
        simpa [keysOf] using hnd
      have hd := List.disjoint_of_nodup_append hnd'
      exact hd hmem (List.mem_cons_self k _)
    have hstep : upsert acc k v = acc ++ [(k, v)] := upsert_absent k v acc hk
    show List.foldl (fun acc p => upsert acc p.1 p.2) (upsert acc k v) rest = _
    rw [hstep, ih (acc ++ [(k, v)]) (by simpa using hnd)]
    simp

theorem dictify_nodup (l : List (String × Json)) (h : (keysOf l).Nodup) :
    dictify l = l := by
  have := dictify_go l [] (by simpa using h)
  simpa [dictify] using this

theorem stringMk_data (s : String) : String.mk s.data = s := by
  cases s
  rfl

theorem parseVal_null_step (f : Nat) (T : List Char) :
    parseVal (f + 1) ('n' :: T) = (expectLit "ull".data T).map (fun r => (Json.null, r)) := rfl

theorem parseVal_true_step (f : Nat) (T : List Char) :
    parseVal (f + 1) ('t' :: T) =
      (expectLit "rue".data T).map (fun r => (Json.bool true, r)) := rfl

theorem parseVal_false_step (f : Nat) (T : List Char) :
    parseVal (f + 1) ('f' :: T) =
      (expectLit "alse".data T).map (fun r => (Json.bool false, r)) := rfl

theorem parseVal_str_step (f : Nat) (T : List Char) :
    parseVal (f + 1) ('"' :: T) =
      (parseStrBody T).map (fun p => (Json.str (String.mk p.1), p.2)) := rfl

theorem parseVal_arr_step (f : Nat) (T : List Char) :
    parseVal (f + 1) ('[' :: T) =
      (match skipWs T with
      | [] => none
      | c2 :: rest2 =>
        if c2 = ']' then some (.arr [], rest2)
        else
          (parseVal f (c2 :: rest2)).bind (fun p =>
            (parseArrTail f p.2).map (fun q => (Json.arr (p.1 :: q.1), q.2)))) := rfl

theorem parseVal_obj_step (f : Nat) (T : List Char) :
    parseVal (f + 1) ('{' :: T) =
      (match skipWs T with
      | [] => none
      | c2 :: rest2 =>
        if c2 = '}' then some (.obj [], rest2)
        else
          (parseMember f (c2 :: rest2)).bind (fun t =>
            (parseObjTail f t.2.2).map (fun q =>
              (Json.obj (dictify ((t.1, t.2.1) :: q.1)), q.2)))) := rfl

theorem parseVal_num_step (f : Nat) (c : Char) (T : List Char) (hw : isWsC c = false)
    (h1 : ¬ c = '"') (h2 : ¬ c = '{') (h3 : ¬ c = '[') (h4 : ¬ c = 'n') (h5 : ¬ c = 't')
    (h6 : ¬ c = 'f') :
    parseVal (f + 1) (c :: T) = parseNumber (c :: T) := by
  have hs : skipWs (c :: T) = c :: T := skipWs_not_ws T hw
  simp only [parseVal, hs, if_neg h1, if_neg h2, if_neg h3, if_neg h4, if_neg h5, if_neg h6]

theorem parseArrTail_comma (f : Nat) (T : List Char) :
    parseArrTail (f + 1) (',' :: T) =
      (parseVal f T).bind (fun p =>
        (parseArrTail f p.2).map (fun q => (p.1 :: q.1, q.2))) := rfl

theorem parseArrTail_close (f M : Nat) (rest : List Char) :
    parseArrTail (f + 1) ('\n' :: (nSpaces M ++ (']' :: rest))) = some ([], rest) := by
  have h : skipWs ('\n' :: (nSpaces M ++ (']' :: rest))) = ']' :: rest := by
    rw [skipWs_newline, skipWs_nSpaces, skipWs_not_ws _ (by decide)]
  simp only [parseArrTail, h]
  rfl

theorem parseObjTail_comma (f : Nat) (T : List Char) :
    parseObjTail (f + 1) (',' :: T) =
      (parseMember f T).bind (fun t =>
        (parseObjTail f t.2.2).map (fun q => ((t.1, t.2.1) :: q.1, q.2))) := rfl

theorem parseObjTail_close (f M : Nat) (rest : List Char) :
    parseObjTail (f + 1) ('\n' :: (nSpaces M ++ ('}' :: rest))) = some ([], rest) := by
  have h : skipWs ('\n' :: (nSpaces M ++ ('}' :: rest))) = '}' :: rest := by
    rw [skipWs_newline, skipWs_nSpaces, skipWs_not_ws _ (by decide)]
  simp only [parseObjTail, h]
  rfl

theorem parseMember_quote (f : Nat) (T : List Char) :
    parseMember (f + 1) ('"' :: T) = (parseStrBody T).bind (fun kp =>
      match skipWs kp.2 with
      | [] => none
      | c2 :: rest2 =>
        if c2 = ':' then
          (parseVal f rest2).map (fun vp => (String.mk kp.1, vp.1, vp.2))
        else none) := rfl

theorem parseMember_dump (fuel L : Nat) (k : String) (v : Json) (rest : List Char)
    (hv : ∀ fuel lvl rest, jfuel v ≤ fuel → sepOk rest →
      parseVal fuel (dumpVal4 lvl v ++ rest) = some (v, rest))
    (hfuel : jfuel v + 2 ≤ fuel) (hrest : sepOk rest) :
    parseMember fuel (dumpStr k ++ ':' :: ' ' :: (dumpVal4 L v ++ rest)) =
      some (k, v, rest) := by
  obtain ⟨f, rfl⟩ : ∃ f, fuel = f + 1 := ⟨fuel - 1, by omega⟩
  have htext : dumpStr k ++ ':' :: ' ' :: (dumpVal4 L v ++ rest) =
      '"' :: (escChars k.data ++ ('"' :: (':' :: ' ' :: (dumpVal4 L v ++ rest)))) := by
    simp [dumpStr]
  rw [htext, parseMember_quote,
    parseStrBody_escChars k.data (':' :: ' ' :: (dumpVal4 L v ++ rest)), Option.some_bind]
  have hsk : skipWs (':' :: ' ' :: (dumpVal4 L v ++ rest)) =
      ':' :: (' ' :: (dumpVal4 L v ++ rest)) := skipWs_not_ws _ (by decide)
  rw [hsk]
  show (parseVal f (' ' :: (dumpVal4 L v ++ rest))).map
      (fun vp => (String.mk k.data, vp.1, vp.2)) = _
  have hinv : parseVal f (' ' :: (dumpVal4 L v ++ rest)) =
      parseVal f (dumpVal4 L v ++ rest) :=
    parseVal_ws_invariant f _ _ (by rw [skipWs_ws _ (by decide)])
  rw [hinv, hv f L rest (by omega) hrest, Option.map_some', stringMk_data]

theorem sepOk_elemsSep (L : Nat) (xs : List Json) (t : List Char) :
    sepOk (elemsSep L xs ++ ('\n' :: t)) := by
  cases xs with
  | nil => exact Or.inr rfl
  | cons y ys => exact Or.inl rfl

theorem sepOk_entriesSep (L : Nat) (es : List (String × Json)) (t : List Char) :
    sepOk (entriesSep L es ++ ('\n' :: t)) := by
  cases es with
  | nil => exact Or.inr rfl
  | cons e es' =>
    obtain ⟨k, v⟩ := e
    exact Or.inl rfl

theorem parseVal_dump (j : Json) : Json.wf j = true →
    ∀ fuel lvl rest, jfuel j ≤ fuel → sepOk rest →
    parseVal fuel (dumpVal4 lvl j ++ rest) = some (j, rest) := by
  induction j using Json.indOn with
  | h0 =>
    intro _ fuel lvl rest hfuel hrest
    obtain ⟨f, rfl⟩ : ∃ f, fuel = f + 1 :=
      ⟨fuel - 1, by have hj : jfuel Json.null = 1 := rfl; omega⟩
    rfl
  | h1 b =>
    intro _ fuel lvl rest hfuel hrest
    obtain ⟨f, rfl⟩ : ∃ f, fuel = f + 1 :=
      ⟨fuel - 1, by have hj : jfuel (Json.bool b) = 1 := rfl; omega⟩
    cases b <;> rfl
  | h2 n =>
    intro _ fuel lvl rest hfuel hrest
    obtain ⟨f, rfl⟩ : ∃ f, fuel = f + 1 :=
      ⟨fuel - 1, by have hj : jfuel (Json.int n) = 1 := rfl; omega⟩
    obtain ⟨c, cs, heq, hw, h1, h2, h3, h4, h5, h6, _⟩ := intToChars_head_facts n
    show parseVal (f + 1) (intToChars n ++ rest) = _
    rw [heq, List.cons_append, parseVal_num_step f c (cs ++ rest) hw h1 h2 h3 h4 h5 h6,
      ← List.cons_append, ← heq, parseNumber_print n rest hrest]
  | h3 s =>
    intro _ fuel lvl rest hfuel hrest
    obtain ⟨f, rfl⟩ : ∃ f, fuel = f + 1 :=
      ⟨fuel - 1, by have hj : jfuel (Json.str s) = 1 := rfl; omega⟩
    have htext : dumpVal4 lvl (.str s) ++ rest =
        '"' :: (escChars s.data ++ ('"' :: rest)) := by
      simp [dumpVal4, dumpStr]
    rw [htext, parseVal_str_step, parseStrBody_escChars s.data rest, Option.map_some',
      stringMk_data]
  | h4 l hIH =>
    intro hwf fuel lvl rest hfuel hrest
    cases l with
    | nil =>
      obtain ⟨f, rfl⟩ : ∃ f, fuel = f + 1 := ⟨fuel - 1, by
        have : jfuel (Json.arr []) = 2 := rfl
        omega⟩
      rfl
    | cons x xs =>
      have hfa : jfuel (Json.arr (x :: xs)) = 2 + (jfuel x + 2 + jfuelList xs) := rfl
      obtain ⟨f, rfl⟩ : ∃ f, fuel = f + 1 := ⟨fuel - 1, by omega⟩
      have hwx : Json.wf x = true ∧ Json.wfList xs = true := by
        have hb : Json.wf (Json.arr (x :: xs)) = (Json.wf x && Json.wfList xs) := rfl
        rw [hb, Bool.and_eq_true] at hwf
        exact hwf
      have htext : dumpVal4 lvl (.arr (x :: xs)) ++ rest =
          '[' :: ('\n' :: (nSpaces (4 * (lvl + 1)) ++ (dumpVal4 (lvl + 1) x ++
            (elemsSep (lvl + 1) xs ++
              ('\n' :: (nSpaces (4 * lvl) ++ (']' :: rest))))))) := by
        show ('[' :: '\n' :: nSpaces (4 * (lvl + 1)) ++ dumpElems4 (lvl + 1) (x :: xs) ++
            '\n' :: nSpaces (4 * lvl) ++ [']']) ++ rest = _
        rw [dumpElems4_split]
        simp [List.append_assoc]
      rw [htext, parseVal_arr_step]
      have hskip : skipWs ('\n' :: (nSpaces (4 * (lvl + 1)) ++ (dumpVal4 (lvl + 1) x ++
          (elemsSep (lvl + 1) xs ++ ('\n' :: (nSpaces (4 * lvl) ++ (']' :: rest))))))) =
          dumpVal4 (lvl + 1) x ++
            (elemsSep (lvl + 1) xs ++ ('\n' :: (nSpaces (4 * lvl) ++ (']' :: rest)))) := by
        rw [skipWs_newline, skipWs_nSpaces, skipWs_dump]
      rw [hskip]
      obtain ⟨c, cs, hx, hwc, hbc⟩ := dumpVal4_cons (lvl + 1) x
      rw [hx, List.cons_append]
      show (if c = ']' then
          some (Json.arr [], cs ++ (elemsSep (lvl + 1) xs ++
            ('\n' :: (nSpaces (4 * lvl) ++ (']' :: rest)))))
        else
          (parseVal f (c :: (cs ++ (elemsSep (lvl + 1) xs ++
              ('\n' :: (nSpaces (4 * lvl) ++ (']' :: rest))))))).bind (fun p =>
            (parseArrTail f p.2).map (fun q => (Json.arr (p.1 :: q.1), q.2)))) = _
      rw [if_neg hbc, ← List.cons_append, ← hx]
      have hx1 : parseVal f (dumpVal4 (lvl + 1) x ++
          (elemsSep (lvl + 1) xs ++ ('\n' :: (nSpaces (4 * lvl) ++ (']' :: rest))))) =
          some (x, elemsSep (lvl + 1) xs ++ ('\n' :: (nSpaces (4 * lvl) ++ (']' :: rest)))) :=
        hIH x (List.mem_cons_self x xs) hwx.1 f (lvl + 1) _ (by omega)
          (sepOk_elemsSep (lvl + 1) xs _)
      rw [hx1, Option.some_bind]
      have htail : ∀ xs', (∀ x' ∈ xs', x' ∈ x :: xs) → Json.wfList xs' = true →
          ∀ f', 1 + jfuelList xs' ≤ f' →
          parseArrTail f' (elemsSep (lvl + 1) xs' ++
            ('\n' :: (nSpaces (4 * lvl) ++ (']' :: rest)))) = some (xs', rest) := by
        intro xs'
        induction xs' with
        | nil =>
          intro _ _ f' hf'
          obtain ⟨f'', rfl⟩ : ∃ g, f' = g + 1 := ⟨f' - 1, by omega⟩
          show parseArrTail (f'' + 1) ('\n' :: (nSpaces (4 * lvl) ++ (']' :: rest))) = _
          exact parseArrTail_close f'' (4 * lvl) rest
        | cons y ys ihy =>
          intro hmem hwfl f' hf'
          have hfl : jfuelList (y :: ys) = jfuel y + 2 + jfuelList ys := rfl
          obtain ⟨f'', rfl⟩ : ∃ g, f' = g + 1 := ⟨f' - 1, by omega⟩
          have hwy : Json.wf y = true ∧ Json.wfList ys = true := by
            have hb : Json.wfList (y :: ys) = (Json.wf y && Json.wfList ys) := rfl
            rw [hb, Bool.and_eq_true] at hwfl
            exact hwfl
          have htext2 : elemsSep (lvl + 1) (y :: ys) ++
              ('\n' :: (nSpaces (4 * lvl) ++ (']' :: rest))) =
              ',' :: ('\n' :: (nSpaces (4 * (lvl + 1)) ++ (dumpVal4 (lvl + 1) y ++
                (elemsSep (lvl + 1) ys ++ ('\n' :: (nSpaces (4 * lvl) ++ (']' :: rest))))))) := by
            show (',' :: '\n' :: nSpaces (4 * (lvl + 1)) ++ dumpVal4 (lvl + 1) y ++
                elemsSep (lvl + 1) ys) ++ ('\n' :: (nSpaces (4 * lvl) ++ (']' :: rest))) = _
            simp [List.append_assoc]
          rw [htext2, parseArrTail_comma]
          have hinv : parseVal f'' ('\n' :: (nSpaces (4 * (lvl + 1)) ++ (dumpVal4 (lvl + 1) y ++
              (elemsSep (lvl + 1) ys ++ ('\n' :: (nSpaces (4 * lvl) ++ (']' :: rest))))))) =
              parseVal f'' (dumpVal4 (lvl + 1) y ++
                (elemsSep (lvl + 1) ys ++ ('\n' :: (nSpaces (4 * lvl) ++ (']' :: rest))))) :=
            parseVal_ws_invariant f'' _ _
              (by rw [skipWs_newline, skipWs_nSpaces, skipWs_dump])
          rw [hinv, hIH y (hmem y (List.mem_cons_self y ys)) hwy.1 f'' (lvl + 1) _
            (by omega) (sepOk_elemsSep (lvl + 1) ys _), Option.some_bind,
            ihy (fun x' hx' => hmem x' (List.mem_cons_of_mem y hx')) hwy.2 f'' (by omega),
            Option.map_some']
      rw [htail xs (fun x' hx' => List.mem_cons_of_mem x hx') hwx.2 f (by omega),
        Option.map_some']
  | h5 l hIH =>
    intro hwf fuel lvl rest hfuel hrest
    cases l with
    | nil =>
      obtain ⟨f, rfl⟩ : ∃ f, fuel = f + 1 := ⟨fuel - 1, by
        have : jfuel (Json.obj []) = 2 := rfl
        omega⟩
      rfl
    | cons e es =>
      obtain ⟨k, v⟩ := e
      have hfa : jfuel (Json.obj ((k, v) :: es)) = 2 + (jfuel v + 3 + jfuelEntries es) := rfl
      obtain ⟨f, rfl⟩ : ∃ f, fuel = f + 1 := ⟨fuel - 1, by omega⟩
      have hnd : (keysOf ((k, v) :: es)).Nodup ∧ Json.wf v = true ∧
          Json.wfEntries es = true := by
        have hw : Json.wf (Json.obj ((k, v) :: es)) =
            (nodupKeysB ((k, v) :: es) && Json.wfEntries ((k, v) :: es)) := rfl
        rw [hw, Bool.and_eq_true] at hwf
        have he : Json.wfEntries ((k, v) :: es) = (Json.wf v && Json.wfEntries es) := rfl
        have := hwf.2
        rw [he, Bool.and_eq_true] at this
        exact ⟨(nodupKeysB_iff _).mp hwf.1, this.1, this.2⟩
      have htext : dumpVal4 lvl (.obj ((k, v) :: es)) ++ rest =
          '{' :: ('\n' :: (nSpaces (4 * (lvl + 1)) ++ (dumpStr k ++ ':' :: ' ' ::
            (dumpVal4 (lvl + 1) v ++ (entriesSep (lvl + 1) es ++
              ('\n' :: (nSpaces (4 * lvl) ++ ('}' :: rest)))))))) := by
        show ('{' :: '\n' :: nSpaces (4 * (lvl + 1)) ++ dumpEntries4 (lvl + 1) ((k, v) :: es) ++
            '\n' :: nSpaces (4 * lvl) ++ ['}']) ++ rest = _
        rw [dumpEntries4_split]
        simp [List.append_assoc]
      rw [htext, parseVal_obj_step]
      have hskip : skipWs ('\n' :: (nSpaces (4 * (lvl + 1)) ++ (dumpStr k ++ ':' :: ' ' ::
          (dumpVal4 (lvl + 1) v ++ (entriesSep (lvl + 1) es ++
            ('\n' :: (nSpaces (4 * lvl) ++ ('}' :: rest)))))))) =
          dumpStr k ++ ':' :: ' ' :: (dumpVal4 (lvl + 1) v ++ (entriesSep (lvl + 1) es ++
            ('\n' :: (nSpaces (4 * lvl) ++ ('}' :: rest))))) := by
        rw [skipWs_newline, skipWs_nSpaces]
        show skipWs (('"' :: (escChars k.data ++ ['"'])) ++ _) = _
        rw [List.cons_append, skipWs_not_ws _ (by decide)]
        simp [dumpStr, List.append_assoc]
      rw [hskip]
      have hqtext : dumpStr k ++ ':' :: ' ' :: (dumpVal4 (lvl + 1) v ++
          (entriesSep (lvl + 1) es ++ ('\n' :: (nSpaces (4 * lvl) ++ ('}' :: rest))))) =
          '"' :: ((escChars k.data ++ ['"']) ++ (':' :: ' ' :: (dumpVal4 (lvl + 1) v ++
            (entriesSep (lvl + 1) es ++ ('\n' :: (nSpaces (4 * lvl) ++ ('}' :: rest))))))) := by
        simp [dumpStr]
      rw [hqtext]
      show (if ('"' : Char) = '}' then
          some (Json.obj [], (escChars k.data ++ ['"']) ++ (':' :: ' ' ::
            (dumpVal4 (lvl + 1) v ++ (entriesSep (lvl + 1) es ++
              ('\n' :: (nSpaces (4 * lvl) ++ ('}' :: rest)))))))
        else
          (parseMember f ('"' :: ((escChars k.data ++ ['"']) ++ (':' :: ' ' ::
              (dumpVal4 (lvl + 1) v ++ (entriesSep (lvl + 1) es ++
                ('\n' :: (nSpaces (4 * lvl) ++ ('}' :: rest))))))))).bind (fun t =>
            (parseObjTail f t.2.2).map (fun q =>
              (Json.obj (dictify ((t.1, t.2.1) :: q.1)), q.2)))) = _
      rw [if_neg (by decide)]
      have hmem1 : parseMember f ('"' :: ((escChars k.data ++ ['"']) ++ (':' :: ' ' ::
          (dumpVal4 (lvl + 1) v ++ (entriesSep (lvl + 1) es ++
            ('\n' :: (nSpaces (4 * lvl) ++ ('}' :: rest)))))))) =
          some (k, v, entriesSep (lvl + 1) es ++
            ('\n' :: (nSpaces (4 * lvl) ++ ('}' :: rest)))) := by
        have heq2 : '"' :: ((escChars k.data ++ ['"']) ++ (':' :: ' ' ::
            (dumpVal4 (lvl + 1) v ++ (entriesSep (lvl + 1) es ++
              ('\n' :: (nSpaces (4 * lvl) ++ ('}' :: rest))))))) =
            dumpStr k ++ ':' :: ' ' :: (dumpVal4 (lvl + 1) v ++
              (entriesSep (lvl + 1) es ++ ('\n' :: (nSpaces (4 * lvl) ++ ('}' :: rest))))) := by
          simp [dumpStr, List.append_assoc]
        rw [heq2]
        exact parseMember_dump f (lvl + 1) k v _
          (fun fu lv re hfu hre => hIH (k, v) (List.mem_cons_self (k, v) es) hnd.2.1 fu lv re hfu hre)
          (by omega) (sepOk_entriesSep (lvl + 1) es _)
      rw [hmem1, Option.some_bind]
      have htail : ∀ es', (∀ e' ∈ es', e' ∈ (k, v) :: es) → Json.wfEntries es' = true →
          ∀ f', 1 + jfuelEntries es' ≤ f' →
          parseObjTail f' (entriesSep (lvl + 1) es' ++
            ('\n' :: (nSpaces (4 * lvl) ++ ('}' :: rest)))) = some (es', rest) := by
        intro es'
        induction es' with
        | nil =>
          intro _ _ f' hf'
          obtain ⟨f'', rfl⟩ : ∃ g, f' = g + 1 := ⟨f' - 1, by omega⟩
          exact parseObjTail_close f'' (4 * lvl) rest
        | cons e2 es2 ihe =>
          obtain ⟨k2, v2⟩ := e2
          intro hmem hwfl f' hf'
          have hfl : jfuelEntries ((k2, v2) :: es2) = jfuel v2 + 3 + jfuelEntries es2 := rfl
          obtain ⟨f'', rfl⟩ : ∃ g, f' = g + 1 := ⟨f' - 1, by omega⟩
          have hwy : Json.wf v2 = true ∧ Json.wfEntries es2 = true := by
            have he2 : Json.wfEntries ((k2, v2) :: es2) =
                (Json.wf v2 && Json.wfEntries es2) := rfl
            rw [he2, Bool.and_eq_true] at hwfl
            exact hwfl
          have htext2 : entriesSep (lvl + 1) ((k2, v2) :: es2) ++
              ('\n' :: (nSpaces (4 * lvl) ++ ('}' :: rest))) =
              ',' :: ('\n' :: (nSpaces (4 * (lvl + 1)) ++ (dumpStr k2 ++ ':' :: ' ' ::
                (dumpVal4 (lvl + 1) v2 ++ (entriesSep (lvl + 1) es2 ++
                  ('\n' :: (nSpaces (4 * lvl) ++ ('}' :: rest)))))))) := by
            show (',' :: '\n' :: nSpaces (4 * (lvl + 1)) ++ dumpStr k2 ++ ':' :: ' ' ::
                dumpVal4 (lvl + 1) v2 ++ entriesSep (lvl + 1) es2) ++
                ('\n' :: (nSpaces (4 * lvl) ++ ('}' :: rest))) = _
            simp [List.append_assoc]
          rw [htext2, parseObjTail_comma]
          have hmemstep : parseMember f'' ('\n' :: (nSpaces (4 * (lvl + 1)) ++ (dumpStr k2 ++
              ':' :: ' ' :: (dumpVal4 (lvl + 1) v2 ++ (entriesSep (lvl + 1) es2 ++
                ('\n' :: (nSpaces (4 * lvl) ++ ('}' :: rest)))))))) =
              some (k2, v2, entriesSep (lvl + 1) es2 ++
                ('\n' :: (nSpaces (4 * lvl) ++ ('}' :: rest)))) := by
            obtain ⟨g, rfl⟩ : ∃ g, f'' = g + 1 := ⟨f'' - 1, by omega⟩
            have hm1 : parseMember (g + 1) ('\n' :: (nSpaces (4 * (lvl + 1)) ++ (dumpStr k2 ++
                ':' :: ' ' :: (dumpVal4 (lvl + 1) v2 ++ (entriesSep (lvl + 1) es2 ++
                  ('\n' :: (nSpaces (4 * lvl) ++ ('}' :: rest)))))))) =
                parseMember (g + 1) (dumpStr k2 ++ ':' :: ' ' ::
                  (dumpVal4 (lvl + 1) v2 ++ (entriesSep (lvl + 1) es2 ++
                    ('\n' :: (nSpaces (4 * lvl) ++ ('}' :: rest)))))) := by
              have hsk : skipWs ('\n' :: (nSpaces (4 * (lvl + 1)) ++ (dumpStr k2 ++
                  ':' :: ' ' :: (dumpVal4 (lvl + 1) v2 ++ (entriesSep (lvl + 1) es2 ++
                    ('\n' :: (nSpaces (4 * lvl) ++ ('}' :: rest)))))))) =
                  skipWs (dumpStr k2 ++ ':' :: ' ' ::
                    (dumpVal4 (lvl + 1) v2 ++ (entriesSep (lvl + 1) es2 ++
                      ('\n' :: (nSpaces (4 * lvl) ++ ('}' :: rest)))))) := by
                rw [skipWs_newline, skipWs_nSpaces]
              simp only [parseMember, hsk]
            rw [hm1]
            exact parseMember_dump (g + 1) (lvl + 1) k2 v2 _
              (fun fu lv re hfu hre =>
                hIH (k2, v2) (hmem (k2, v2) (List.mem_cons_self (k2, v2) es2)) hwy.1 fu lv re hfu hre)
              (by omega) (sepOk_entriesSep (lvl + 1) es2 _)
          rw [hmemstep, Option.some_bind,
            ihe (fun e' he' => hmem e' (List.mem_cons_of_mem (k2, v2) he')) hwy.2 f'' (by omega),
            Option.map_some']
      rw [htail es (fun e' he' => List.mem_cons_of_mem (k, v) he') hnd.2.2 f (by omega),
        Option.map_some']
      have hdict : dictify ((k, v) :: es) = (k, v) :: es := dictify_nodup _ hnd.1
      rw [hdict]

theorem nSpaces_length (n : Nat) : (nSpaces n).length = n := by
  simp [nSpaces]

theorem jfuel_le_dump_length (j : Json) : ∀ lvl, jfuel j ≤ (dumpVal4 lvl j).length := by
  induction j using Json.indOn with
  | h0 => intro lvl; simp [jfuel, dumpVal4]
  | h1 b => intro lvl; cases b <;> simp [jfuel, dumpVal4]
  | h2 n =>
    intro lvl
    obtain ⟨c, cs, heq, _⟩ := intToChars_head n
    show jfuel (Json.int n) ≤ (intToChars n).length
    rw [heq]
    have : jfuel (Json.int n) = 1 := rfl
    simp [this]
  | h3 s =>
    intro lvl
    show jfuel (Json.str s) ≤ (dumpStr s).length
    have : jfuel (Json.str s) = 1 := rfl
    simp [this, dumpStr]
  | h4 l hIH =>
    intro lvl
    cases l with
    | nil =>
      have h1 : jfuel (Json.arr []) = 2 := rfl
      have h2 : dumpVal4 lvl (Json.arr []) = "[]".data := rfl
      simp [h1, h2]
    | cons x xs =>
      have hel : ∀ (L : Nat) (x : Json) (xs : List Json), (∀ z ∈ x :: xs, ∀ lv, jfuel z ≤ (dumpVal4 lv z).length) →
          jfuelList (x :: xs) ≤ (dumpElems4 L (x :: xs)).length + 2 := by
        intro L x' xs'
        induction xs' generalizing x' with
        | nil =>
          intro hz
          have h1 : jfuelList [x'] = jfuel x' + 2 := rfl
          have h2 : dumpElems4 L [x'] = dumpVal4 L x' := rfl
          have hx : jfuel x' ≤ (dumpVal4 L x').length := hz x' (List.mem_cons_self x' []) L
          simp [h1, h2]
          omega
        | cons y ys ihy =>
          intro hz
          have h1 : jfuelList (x' :: y :: ys) = jfuel x' + 2 + jfuelList (y :: ys) := rfl
          have h2 : dumpElems4 L (x' :: y :: ys) =
              dumpVal4 L x' ++ ',' :: '\n' :: nSpaces (4 * L) ++ dumpElems4 L (y :: ys) := rfl
          have hx : jfuel x' ≤ (dumpVal4 L x').length := hz x' (List.mem_cons_self x' (y :: ys)) L
          have hrec := ihy y (fun z hzm lv => hz z (List.mem_cons_of_mem x' hzm) lv)
          rw [h1, h2]
          simp only [List.length_append, List.length_cons, nSpaces_length]
          omega
      have h1 : jfuel (Json.arr (x :: xs)) = 2 + jfuelList (x :: xs) := rfl
      have h2 : dumpVal4 lvl (Json.arr (x :: xs)) =
          '[' :: '\n' :: nSpaces (4 * (lvl + 1)) ++ dumpElems4 (lvl + 1) (x :: xs) ++
            '\n' :: nSpaces (4 * lvl) ++ [']'] := rfl
      have h3 := hel (lvl + 1) x xs (fun z hz lv => hIH z hz lv)
      rw [h1, h2]
      simp only [List.length_append, List.length_cons, nSpaces_length]
      omega
  | h5 l hIH =>
    intro lvl
    cases l with
    | nil =>
      have h1 : jfuel (Json.obj []) = 2 := rfl
      have h2 : dumpVal4 lvl (Json.obj []) = "{}".data := rfl
      simp [h1, h2]
    | cons e es =>
      obtain ⟨k, v⟩ := e
      have hen : ∀ (L : Nat) (k : String) (v : Json) (es : List (String × Json)),
          (∀ p ∈ (k, v) :: es, ∀ lv, jfuel p.2 ≤ (dumpVal4 lv p.2).length) →
          jfuelEntries ((k, v) :: es) ≤ (dumpEntries4 L ((k, v) :: es)).length + 3 := by
        intro L k' v' es'
        induction es' generalizing k' v' with
        | nil =>
          intro hz
          have h1 : jfuelEntries [(k', v')] = jfuel v' + 3 := rfl
          have h2 : dumpEntries4 L [(k', v')] = dumpStr k' ++ ':' :: ' ' :: dumpVal4 L v' := rfl
          have hx : jfuel v' ≤ (dumpVal4 L v').length := hz (k', v') (List.mem_cons_self _ []) L
          have hds : 1 ≤ (dumpStr k').length := by simp [dumpStr]
          rw [h1, h2]
          simp only [List.length_append, List.length_cons]
          omega
        | cons e2 es2 ihe =>
          obtain ⟨k2, v2⟩ := e2
          intro hz
          have h1 : jfuelEntries ((k', v') :: (k2, v2) :: es2) =
              jfuel v' + 3 + jfuelEntries ((k2, v2) :: es2) := rfl
          have h2 : dumpEntries4 L ((k', v') :: (k2, v2) :: es2) =
              dumpStr k' ++ ':' :: ' ' :: dumpVal4 L v' ++ ',' :: '\n' :: nSpaces (4 * L) ++
                dumpEntries4 L ((k2, v2) :: es2) := rfl
          have hx : jfuel v' ≤ (dumpVal4 L v').length := hz (k', v') (List.mem_cons_self _ _) L
          have hrec := ihe k2 v2 (fun p hp lv => hz p (List.mem_cons_of_mem (k', v') hp) lv)
          rw [h1, h2]
          simp only [List.length_append, List.length_cons, nSpaces_length]
          omega
      have h1 : jfuel (Json.obj ((k, v) :: es)) = 2 + jfuelEntries ((k, v) :: es) := rfl
      have h2 : dumpVal4 lvl (Json.obj ((k, v) :: es)) =
          '{' :: '\n' :: nSpaces (4 * (lvl + 1)) ++ dumpEntries4 (lvl + 1) ((k, v) :: es) ++
            '\n' :: nSpaces (4 * lvl) ++ ['}'] := rfl
      have h3 := hen (lvl + 1) k v es (fun p hp lv => hIH p hp lv)
      rw [h1, h2]
      simp only [List.length_append, List.length_cons, nSpaces_length]
      omega

/-- Round trip: parsing the serialized form of a well-formed JSON document
returns the document. -/
theorem jsonParse_dump (j : Json) (h : Json.wf j = true) :
    jsonParse (String.mk (dumpVal4 0 j)) = some j := by
  have hdata : (String.mk (dumpVal4 0 j)).data = dumpVal4 0 j := rfl
  have hfuel : jfuel j ≤ (dumpVal4 0 j).length + 1 :=
    Nat.le_succ_of_le (jfuel_le_dump_length j 0)
  have hp := parseVal_dump j h ((dumpVal4 0 j).length + 1) 0 [] hfuel trivial
  rw [List.append_nil] at hp
  unfold jsonParse
  rw [hdata, hp]
  rfl

/-- Truncate to 32 bits. -/
def m32 (n : Nat) : Nat := n % 4294967296

/-- Bitwise complement on 32 bits. -/
def bnot32 (x : Nat) : Nat := 4294967295 - x

/-- Rotate a 32-bit word left by `s` (the two parts occupy disjoint bit
ranges, so addition is the bitwise or). -/
def rotl32 (x s : Nat) : Nat := m32 (x * 2 ^ s) + x / 2 ^ (32 - s)

/-- The 64 MD5 sine-table constants (RFC 1321). -/
def md5K : List Nat :=
  [0xd76aa478, 0xe8c7b756, 0x242070db, 0xc1bdceee, 0xf57c0faf, 0x4787c62a, 0xa8304613, 0xfd469501,
   0x698098d8, 0x8b44f7af, 0xffff5bb1, 0x895cd7be, 0x6b901122, 0xfd987193, 0xa679438e, 0x49b40821,
   0xf61e2562, 0xc040b340, 0x265e5a51, 0xe9b6c7aa, 0xd62f105d, 0x02441453, 0xd8a1e681, 0xe7d3fbc8,
   0x21e1cde6, 0xc33707d6, 0xf4d50d87, 0x455a14ed, 0xa9e3e905, 0xfcefa3f8, 0x676f02d9, 0x8d2a4c8a,
   0xfffa3942, 0x8771f681, 0x6d9d6122, 0xfde5380c, 0xa4beea44, 0x4bdecfa9, 0xf6bb4b60, 0xbebfbc70,
   0x289b7ec6, 0xeaa127fa, 0xd4ef3085, 0x04881d05, 0xd9d4d039, 0xe6db99e5, 0x1fa27cf8, 0xc4ac5665,
   0xf4292244, 0x432aff97, 0xab9423a7, 0xfc93a039, 0x655b59c3, 0x8f0ccc92, 0xffeff47d, 0x85845dd1,
   0x6fa87e4f, 0xfe2ce6e0, 0xa3014314, 0x4e0811a1, 0xf7537e82, 0xbd3af235, 0x2ad7d2bb, 0xeb86d391]

/-- The per-round left-rotation amounts. -/
def md5S : List Nat :=
  [7, 12, 17, 22, 7, 12, 17, 22, 7, 12, 17, 22, 7, 12, 17, 22,
   5, 9, 14, 20, 5, 9, 14, 20, 5, 9, 14, 20, 5, 9, 14, 20,
   4, 11, 16, 23, 4, 11, 16, 23, 4, 11, 16, 23, 4, 11, 16, 23,
   6, 10, 15, 21, 6, 10, 15, 21, 6, 10, 15, 21, 6, 10, 15, 21]

/-- Message-word index for round `i`. -/
def md5G (i : Nat) : Nat :=
  if i < 16 then i
  else if i < 32 then (5 * i + 1) % 16
  else if i < 48 then (3 * i + 5) % 16
  else (7 * i) % 16

/-- The four MD5 round functions F, G, H, I. -/
def md5F (i b c d : Nat) : Nat :=
  if i < 16 then Nat.lor (Nat.land b c) (Nat.land (bnot32 b) d)
  else if i < 32 then Nat.lor (Nat.land d b) (Nat.land (bnot32 d) c)
  else if i < 48 then Nat.xor b (Nat.xor c d)
  else Nat.xor c (Nat.lor b (bnot32 d))

/-- Little-endian 32-bit word `g` of a 64-byte block. -/
def wordAt (block : List Nat) (g : Nat) : Nat :=
  block.getD (4 * g) 0 + 256 * block.getD (4 * g + 1) 0 +
    65536 * block.getD (4 * g + 2) 0 + 16777216 * block.getD (4 * g + 3) 0

/-- Run the first `i` of the 64 MD5 rounds on one block. -/
def md5Steps (block : List Nat) : Nat → Nat × Nat × Nat × Nat → Nat × Nat × Nat × Nat
  | 0, st => st
  | i + 1, st =>
    let (a, b, c, d) := md5Steps block i st
    let f := m32 (md5F i b c d + a + md5K.getD i 0 + wordAt block (md5G i))
    (d, m32 (b + rotl32 f (md5S.getD i 0)), b, c)

/-- MD5 block compression. -/
def md5Compress (st : Nat × Nat × Nat × Nat) (block : List Nat) : Nat × Nat × Nat × Nat :=
  let (a0, b0, c0, d0) := st
  let (a, b, c, d) := md5Steps block 64 (a0, b0, c0, d0)
  (m32 (a0 + a), m32 (b0 + b), m32 (c0 + c), m32 (d0 + d))

/-- Little-endian byte decomposition. -/
def leBytes : Nat → Nat → List Nat
  | 0, _ => []
  | k + 1, n => n % 256 :: leBytes k (n / 256)

/-- MD5 padding: `0x80`, zeros to 56 mod 64, then the 64-bit bit length. -/
def md5Pad (msg : List Nat) : List Nat :=
  let len := msg.length
  let padLen := (119 - len % 64) % 64
  msg ++ 128 :: List.replicate padLen 0 ++ leBytes 8 ((len * 8) % 2 ^ 64)

/-- Fold the compression function over the 64-byte blocks. -/
def md5Blocks : Nat → Nat × Nat × Nat × Nat → List Nat → Nat × Nat × Nat × Nat
  | 0, st, _ => st
  | _, st, [] => st
  | fuel + 1, st, bytes => md5Blocks fuel (md5Compress st (bytes.take 64)) (bytes.drop 64)

/-- Two lowercase hex digits of a byte. -/
def byteHex (b : Nat) : List Char := [hexDigitChar (b / 16), hexDigitChar (b % 16)]

/-- Hex rendering of a little-endian 32-bit word. -/
def wordHexLE (x : Nat) : List Char := (leBytes 4 x).flatMap byteHex

/-- MD5 digest of a byte string, rendered as 32 lowercase hex characters;
the model of `hashlib.md5(...).hexdigest()`. -/
def md5Hex (msg : List Nat) : String :=
  let padded := md5Pad msg
  let st := md5Blocks (padded.length + 1)
    (0x67452301, 0xefcdab89, 0x98badcfe, 0x10325476) padded
  String.mk (wordHexLE st.1 ++ wordHexLE st.2.1 ++ wordHexLE st.2.2.1 ++ wordHexLE st.2.2.2)

/-- UTF-8 encoding of one character (`str.encode("utf-8")`). -/
def utf8Bytes (c : Char) : List Nat :=
  let v := c.toNat
  if v < 128 then [v]
  else if v < 2048 then [192 + v / 64, 128 + v % 64]
  else if v < 65536 then [224 + v / 4096, 128 + v / 64 % 64, 128 + v % 64]
  else [240 + v / 262144, 128 + v / 4096 % 64, 128 + v / 64 % 64, 128 + v % 64]

/-- UTF-8 encoding of a character sequence. -/
def utf8Encode : List Char → List Nat
  | [] => []
  | c :: cs => utf8Bytes c ++ utf8Encode cs

/-- The fingerprint comparator:
`hashlib.md5(json.dumps(jsonData, sort_keys=True).encode("utf-8")).hexdigest()`. -/
def hashJSON (jsonData : Json) : String :=
  md5Hex (utf8Encode (dumpSorted jsonData))

/-- `Reord j1 j2` holds when `j2` is obtained from `j1` by reordering the
entry lists of (nested) objects: arrays stay aligned elementwise and each
object's entry list is permuted after its values are themselves reordered. -/
inductive Reord : Json → Json → Prop where
  | null : Reord .null .null
  | bool (b : Bool) : Reord (.bool b) (.bool b)
  | int (n : Int) : Reord (.int n) (.int n)
  | str (s : String) : Reord (.str s) (.str s)
  | arr (l m : List Json) (hlen : l.length = m.length)
      (hval : ∀ i (h1 : i < l.length) (h2 : i < m.length),
        Reord (l.get ⟨i, h1⟩) (m.get ⟨i, h2⟩)) :
      Reord (.arr l) (.arr m)
  | obj (l m m' : List (String × Json)) (hlen : l.length = m.length)
      (hkey : ∀ i (h1 : i < l.length) (h2 : i < m.length),
        (l.get ⟨i, h1⟩).1 = (m.get ⟨i, h2⟩).1)
      (hval : ∀ i (h1 : i < l.length) (h2 : i < m.length),
        Reord (l.get ⟨i, h1⟩).2 (m.get ⟨i, h2⟩).2)
      (hperm : List.Perm m m') :
      Reord (.obj l) (.obj m')

theorem sortKeysList_eq_map (l : List Json) : sortKeysList l = l.map sortKeysJson := by
  induction l with
  | nil => rfl
  | cons x xs ih => simp [sortKeysList, ih]

theorem sortKeysEntries_eq_map (l : List (String × Json)) :
    sortKeysEntries l = l.map (fun p => (p.1, sortKeysJson p.2)) := by
  induction l with
  | nil => rfl
  | cons p rest ih =>
    obtain ⟨k, v⟩ := p
    simp [sortKeysEntries, ih]

theorem keysOf_sortKeysEntries (l : List (String × Json)) :
    keysOf (sortKeysEntries l) = keysOf l := by
  rw [sortKeysEntries_eq_map]
  simp [keysOf]

theorem reord_sortKeys : ∀ {j1 j2 : Json}, Reord j1 j2 → Json.wf j1 = true →
    sortKeysJson j1 = sortKeysJson j2 := by
  intro j1 j2 h
  induction h with
  | null => intro _; rfl
  | bool b => intro _; rfl
  | int n => intro _; rfl
  | str s => intro _; rfl
  | arr l m hlen hval ih =>
    intro hwf
    show Json.arr (sortKeysList l) = Json.arr (sortKeysList m)
    have hwfl := (Json.wfList_iff l).mp hwf
    congr 1
    rw [sortKeysList_eq_map, sortKeysList_eq_map]
    apply List.ext_get (by simp [hlen])
    intro i h1 h2
    simp only [List.get_map]
    exact ih i (by simpa using h1) (by simpa using h2) (hwfl _ (List.get_mem l _ _))
  | obj l m m' hlen hkey hval hperm ih =>
    intro hwf
    show Json.obj (sortEntries (sortKeysEntries l)) =
      Json.obj (sortEntries (sortKeysEntries m'))
    have hwf' : nodupKeysB l = true ∧ Json.wfEntries l = true := by
      have hb : Json.wf (Json.obj l) = (nodupKeysB l && Json.wfEntries l) := rfl
      rw [hb, Bool.and_eq_true] at hwf
      exact hwf
    have hvwf := (Json.wfEntries_iff l).mp hwf'.2
    have hnd : (keysOf l).Nodup := (nodupKeysB_iff l).mp hwf'.1
    have hlm : sortKeysEntries l = sortKeysEntries m := by
      rw [sortKeysEntries_eq_map, sortKeysEntries_eq_map]
      apply List.ext_get (by simp [hlen])
      intro i h1 h2
      simp only [List.get_map]
      have hk := hkey i (by simpa using h1) (by simpa using h2)
      have hv := ih i (by simpa using h1) (by simpa using h2)
        (hvwf _ (List.get_mem l _ _))
      rw [hk, hv]
    have hperm2 : List.Perm (sortKeysEntries m) (sortKeysEntries m') := by
      rw [sortKeysEntries_eq_map, sortKeysEntries_eq_map]
      exact hperm.map _
    have hndm : (keysOf (sortKeysEntries m)).Nodup := by
      rw [keysOf_sortKeysEntries]
      have hkm : keysOf m = keysOf l := by
        apply List.ext_get (by simp [keysOf, hlen])
        intro i h1 h2
        simp only [keysOf, List.get_map]
        exact (hkey i (by simpa [keysOf] using h2) (by simpa [keysOf] using h1)).symm
      rw [hkm]
      exact hnd
    congr 1
    rw [hlm]
    exact sortEntries_eq_of_perm hperm2 hndm

/-- An HTTP response as observed by the probing code. -/
structure HttpResponse where
  status : Nat
  headers : List (String × String)
  body : String
  deriving DecidableEq

/-- The network oracle: what `requests.request` (sync) or
`session.request` (async) does for a given method and URL during one run.
`.error` models a raised exception (connection refused, DNS, TLS, timeout);
`.ok` a completed HTTP exchange.  The configured proxy and the disabled TLS
verification are uniform per run and absorbed into the oracle. -/
def NetOracle : Type := String → String → Except String HttpResponse

/-- `doSyncRequest`: perform the request (an exception propagates to the
caller), then try `response.json()`, swallowing any decode failure. -/
def doSyncRequest (net : NetOracle) (method url : String) :
    Except String (HttpResponse × Option Json) :=
  match net method url with
  | .error e => .error e
  | .ok response => .ok (response, jsonParse response.body)

/-- `doAsyncRequest`: same contract as `doSyncRequest` over the shared
`aiohttp` session; the coroutine's exception is captured by `asyncio.gather`
with `return_exceptions=True`. -/
def doAsyncRequest (net : NetOracle) (method url : String) :
    Except String (HttpResponse × Option Json) :=
  match net method url with
  | .error e => .error e
  | .ok response => .ok (response, jsonParse response.body)

/-- State of the local catalog file (`listFileName`): `none` when the file
does not exist (`os.path.isfile` is false). -/
structure FsState where
  file : Option String
  deriving DecidableEq

/-- Errors raised by `readList`. -/
inductive ReadError where
  | notFound
  | parseError
  deriving DecidableEq

/-- `readList`: open the catalog file and `json.load` it.  A missing file
raises `FileNotFoundError`, malformed JSON raises `JSONDecodeError`. -/
def readList (fs : FsState) : Except ReadError Json :=
  match fs.file with
  | none => .error .notFound
  | some content =>
    match jsonParse content with
    | none => .error .parseError
    | some data => .ok data

/-- The Python value held by `parsedData`: `None` (that is, JSON `null`)
when decoding failed. -/
def pyVal (parsedData : Option Json) : Json := parsedData.getD Json.null

/-- `downloadList`: fetch the remote list, then `open(listFileName, "w")`
and `json.dump(parsedData, f, indent=4, ensure_ascii=False)`.  A fetch
exception propagates with the file untouched; `writeOk = false` models
`open`/write failing with `IOError`, also before truncation. -/
def downloadList (net : NetOracle) (listURL : String) (writeOk : Bool) (fs : FsState) :
    Except String Unit × FsState :=
  match doSyncRequest net "GET" listURL with
  | .error e => (.error e, fs)
  | .ok (_, parsedData) =>
    if writeOk then
      (.ok (), { file := some (String.mk (dumpVal4 0 (pyVal parsedData))) })
    else
      (.error "IOError", fs)

/-- The successive states of the catalog file during `downloadList`:
`open(..., "w")` truncates the file in place before `json.dump` writes the
new content, so a successful run passes through a truncated state. -/
def downloadListStates (net : NetOracle) (listURL : String) (writeOk : Bool)
    (fs : FsState) : List FsState :=
  match doSyncRequest net "GET" listURL with
  | .error _ => [fs]
  | .ok (_, parsedData) =>
    if writeOk then
      [fs, { file := some "" }, { file := some (String.mk (dumpVal4 0 (pyVal parsedData))) }]
    else
      [fs]

/-- `checkUpdates`: the catalog freshness check run at startup.  With a local
file present, compare the MD5 fingerprints of the local and the freshly
fetched remote list and call `downloadList` when they differ; with no local
file, download unconditionally.  The returned pair is (outcome, final file
state); `.error` is an uncaught Python exception. -/
def checkUpdates (net : NetOracle) (listURL : String) (writeOk : Bool) (fs : FsState) :
    Except String Unit × FsState :=
  match fs.file with
  | some _ =>
    match readList fs with
    | .error _ => (.error "ParseError", fs)
    | .ok data =>
      let currentListHash := hashJSON data
      match doSyncRequest net "GET" listURL with
      | .error e => (.error e, fs)
      | .ok (_, parsedData) =>
        let remoteListHash := hashJSON (pyVal parsedData)
        if currentListHash ≠ remoteListHash then downloadList net listURL writeOk fs
        else (.ok (), fs)
  | none => downloadList net listURL writeOk fs

/-- Outcome of one probe coroutine under `return_exceptions=True`: either
the exception or the `(response, parsed_json)` pair. -/
def Probe : Type := Except String (HttpResponse × Option Json)

/-- Write a value into result slot `i`. -/
def setSlot {α : Type} : List (Option α) → Nat → α → List (Option α)
  | [], _, _ => []
  | _ :: t, 0, a => some a :: t
  | h :: t, n + 1, a => h :: setSlot t n a

/-- Process completion events in the order they arrive: event `i` stores
task `i`'s outcome in slot `i`. -/
def fillSlots {α : Type} (outcomes : List α) : List Nat → List (Option α) → List (Option α)
  | [], slots => slots
  | i :: rest, slots =>
    fillSlots outcomes rest
      (match outcomes[i]? with
       | some a => setSlot slots i a
       | none => slots)

/-- Model of `asyncio.gather(*tasks, return_exceptions=True)`: tasks run
concurrently and complete in an arbitrary order (`order`), and gather places
each task's outcome in the result slot of that task's position.  A slot is
`none` only if its task never completed, which cannot happen when `order`
covers every task index. -/
def gatherModel {α : Type} (outcomes : List α) (order : List Nat) : List (Option α) :=
  fillSlots outcomes order (List.replicate outcomes.length none)

/-- Dictionary lookup on an object entry list. -/
def lookupKey : List (String × Json) → String → Option Json
  | [], _ => none
  | (k0, v) :: rest, k => if k0 = k then some v else lookupKey rest k

/-- Python's `data[k]` for JSON values: a lookup on an object, failure
(`KeyError`/`TypeError`) otherwise. -/
def Json.getKey : Json → String → Option Json
  | .obj entries, k => lookupKey entries k
  | _, _ => none

/-- One step of `str.replace` scanning with fuel (the pattern is nonempty at
every call site, so each step consumes at least one character). -/
def pyReplaceAux (pat rep : List Char) : Nat → List Char → List Char
  | 0, s => s
  | fuel + 1, s =>
    if pat.isPrefixOf s then rep ++ pyReplaceAux pat rep fuel (s.drop pat.length)
    else
      match s with
      | [] => []
      | c :: rest => c :: pyReplaceAux pat rep fuel rest

/-- Python `s.replace(pat, rep)`: replace every non-overlapping occurrence
left to right, never rescanning the replacement text.  (The empty-pattern
behaviour of Python, interleaving `rep` everywhere, is not modelled; the
only pattern used is `"{account}"`.) -/
def pyReplace (s pat rep : String) : String :=
  if pat.data.isEmpty then s
  else String.mk (pyReplaceAux pat.data rep.data (s.data.length + 1) s.data)

/-- Does `pat` occur as a contiguous substring? -/
def containsSub (pat : List Char) : List Char → Bool
  | [] => pat.isEmpty
  | c :: rest => pat.isPrefixOf (c :: rest) || containsSub pat rest

/-- The probe URL built for one site: `site["uri_check"].replace("{account}",
username)`.  `none` models the exception raised while building the task list
when the site has no string `uri_check`. -/
def siteUrl (username : String) (site : Json) : Option String :=
  match site.getKey "uri_check" with
  | some (.str t) => some (pyReplace t "\x7baccount\x7d" username)
  | _ => none

/-- `fetchResults`: read the catalog, build one `doAsyncRequest` task per
entry of `data["sites"]` (in catalog order), run them all concurrently and
gather the outcomes.  `order` is the completion order chosen by the event
loop.  `none` models an exception before the tasks are gathered: a missing
or unreadable catalog file, a non-array `sites` field, or a malformed site
entry. -/
def fetchResults (net : NetOracle) (fs : FsState) (username : String)
    (order : List Nat) : Option (List (Option Probe)) :=
  match readList fs with
  | .error _ => none
  | .ok data =>
    match data.getKey "sites" with
    | some (.arr sites) =>
      match sites.mapM (siteUrl username) with
      | some urls =>
        some (gatherModel (urls.map (fun url => doAsyncRequest net "GET" url)) order)
      | none => none
    | _ => none

/-- First-match association lookup, modelling `dict.get` on the platforms
map (`self.platforms.get(platform_name)`). -/
def assocGet : List (String × String) → String → Option String
  | [], _ => none
  | (k, v) :: rest, key => if k = key then some v else assocGet rest key

/-- Python truthiness of an `Optional[str]`: `None` and `""` are falsy. -/
def pyTruthy : Option String → Bool
  | none => false
  | some s => !s.isEmpty

/-- Scanner for `str.format` with a single positional argument: `{{` and
`}}` are brace literals, the first auto-numbered `{}` substitutes the
argument, a second `{}` raises `IndexError`, and any other brace use
(unclosed brace, named or indexed field, stray `}`) raises; `none` models
the raise.  The repository's URL templates only use bare `{}`. -/
def pyFormat1Aux (arg : List Char) : Bool → List Char → Option (List Char)
  | _, [] => some []
  | used, '{' :: '{' :: rest => (pyFormat1Aux arg used rest).map ('{' :: ·)
  | used, '}' :: '}' :: rest => (pyFormat1Aux arg used rest).map ('}' :: ·)
  | used, '{' :: '}' :: rest =>
    if used then none
    else (pyFormat1Aux arg true rest).map (arg ++ ·)
  | _, '{' :: _ => none
  | _, '}' :: _ => none
  | used, c :: rest => (pyFormat1Aux arg used rest).map (c :: ·)

/-- `template.format(username)`; `none` models a raised exception. -/
def pyFormat1 (template arg : String) : Option String :=
  (pyFormat1Aux arg.data false template.data).map String.mk

/-- `PlatformURLManager.get_profile_url`, with the manager's `platforms`
dict passed explicitly: if the looked-up template is truthy, return
`url_template.format(username)`; else if the fallback is truthy, return it;
else return the `"Unknown platform: ..."` message.  `none` models an
exception raised by `format`. -/
def get_profile_url (platforms : List (String × String)) (platform_name username : String)
    (fallback_url : Option String) : Option String :=
  let url_template := assocGet platforms platform_name
  if pyTruthy url_template then pyFormat1 (url_template.getD "") username
  else if pyTruthy fallback_url then some (fallback_url.getD "")
  else some ("Unknown platform: " ++ platform_name)

theorem setSlot_length {α : Type} : ∀ (slots : List (Option α)) (i : Nat) (a : α),
    (setSlot slots i a).length = slots.length := by
  intro slots
  induction slots with
  | nil => intro i a; rfl
  | cons h t ih =>
    intro i a
    cases i with
    | zero => rfl
    | succ n => simp [setSlot, ih]

theorem setSlot_get_eq {α : Type} : ∀ (slots : List (Option α)) (i : Nat) (a : α),
    i < slots.length → (setSlot slots i a)[i]? = some (some a) := by
  intro slots
  induction slots with
  | nil => intro i a h; simp at h
  | cons h t ih =>
    intro i a hi
    cases i with
    | zero => simp [setSlot]
    | succ n =>
      show (h :: setSlot t n a)[n + 1]? = some (some a)
      simp only [List.getElem?_cons_succ]
      exact ih n a (by simpa using hi)

theorem setSlot_get_ne {α : Type} : ∀ (slots : List (Option α)) (i : Nat) (a : α) (j : Nat),
    j ≠ i → (setSlot slots i a)[j]? = slots[j]? := by
  intro slots
  induction slots with
  | nil => intro i a j _; rfl
  | cons h t ih =>
    intro i a j hne
    cases i with
    | zero =>
      cases j with
      | zero => exact absurd rfl hne
      | succ m => simp [setSlot]
    | succ n =>
      cases j with
      | zero => simp [setSlot]
      | succ m =>
        show (h :: setSlot t n a)[m + 1]? = (h :: t)[m + 1]?
        simp only [List.getElem?_cons_succ]
        exact ih n a m (fun hm => hne (by omega))

theorem fillSlots_sound {α : Type} (outcomes : List α) : ∀ (order : List Nat)
    (slots : List (Option α)), slots.length = outcomes.length →
    (fillSlots outcomes order slots).length = outcomes.length ∧
    (∀ j, j < outcomes.length →
      (fillSlots outcomes order slots)[j]? =
        if j ∈ order then outcomes[j]?.map some else slots[j]?) := by
  intro order
  induction order with
  | nil =>
    intro slots hlen
    refine ⟨hlen, ?_⟩
    intro j hj
    simp [fillSlots]
  | cons i rest ih =>
    intro slots hlen
    have hlen' : (match outcomes[i]? with
        | some a => setSlot slots i a
        | none => slots).length = outcomes.length := by
      cases houti : outcomes[i]? with
      | none => exact hlen
      | some a => simp [setSlot_length, hlen]
    obtain ⟨hl, hg⟩ := ih _ hlen'
    refine ⟨hl, ?_⟩
    intro j hj
    rw [show fillSlots outcomes (i :: rest) slots =
      fillSlots outcomes rest (match outcomes[i]? with
        | some a => setSlot slots i a
        | none => slots) from rfl]
    rw [hg j hj]
    by_cases hjr : j ∈ rest
    · simp [hjr, List.mem_cons]
    · by_cases hji : j = i
      · subst hji
        have hsome : ∃ a, outcomes[j]? = some a := by
          rw [List.getElem?_eq_getElem hj]
          exact ⟨_, rfl⟩
        obtain ⟨a, ha⟩ := hsome
        simp only [ha, if_neg hjr, List.mem_cons, eq_self_iff_true, true_or, if_true,
          Option.map_some']
        exact setSlot_get_eq slots j a (hlen ▸ hj)
      · have hnm : ¬ j ∈ i :: rest := by
          intro hmem
          rcases List.mem_cons.mp hmem with rfl | hmem2
          · exact hji rfl
          · exact hjr hmem2
        simp only [if_neg hjr, if_neg hnm]
        cases houti : outcomes[i]? with
        | none => rfl
        | some a => exact setSlot_get_ne slots i a j hji

/-- With a completion order covering every task exactly once (any
permutation of the task indices), gather returns exactly the per-task
outcomes, in task order. -/
theorem gatherModel_perm {α : Type} (outcomes : List α) (order : List Nat)
    (hperm : List.Perm order (List.range outcomes.length)) :
    gatherModel outcomes order = outcomes.map some := by
  obtain ⟨hl, hg⟩ := fillSlots_sound outcomes order
    (List.replicate outcomes.length none) (by simp)
  apply List.ext_getElem?
  intro j
  by_cases hj : j < outcomes.length
  · rw [show gatherModel outcomes order =
      fillSlots outcomes order (List.replicate outcomes.length none) from rfl]
    rw [hg j hj]
    have hmem : j ∈ order := by
      rw [hperm.mem_iff, List.mem_range]
      exact hj
    rw [if_pos hmem, List.getElem?_eq_getElem hj]
    simp [List.getElem?_eq_getElem, hj]
  · have h1 : (gatherModel outcomes order)[j]? = none := by
      apply List.getElem?_eq_none
      rw [show gatherModel outcomes order =
        fillSlots outcomes order (List.replicate outcomes.length none) from rfl, hl]
      omega
    have h2 : (outcomes.map some)[j]? = none := by
      apply List.getElem?_eq_none
      simp
      omega
    rw [h1, h2]

theorem mapM_option_length {α β : Type} (f : α → Option β) :
    ∀ (l : List α) (res : List β), l.mapM f = some res → res.length = l.length := by
  intro l
  induction l with
  | nil =>
    intro res h
    simp only [List.mapM_nil, pure, Option.some.injEq] at h
    simp [← h]
  | cons a as ih =>
    intro res h
    rw [List.mapM_cons] at h
    cases hfa : f a with
    | none => rw [hfa] at h; simp at h
    | some b =>
      rw [hfa] at h
      cases hrest : as.mapM f with
      | none =>
        rw [hrest] at h
        simp at h
      | some bs =>
        rw [hrest] at h
        simp only [Option.bind_eq_bind, Option.some_bind, Option.map_some',
          Option.some.injEq] at h
        have hb := ih bs hrest
        simp only [bind, Option.bind, pure] at h
        cases h
        simp [hb]

theorem fetchResults_eval (net : NetOracle) (fs : FsState) (username : String)
    (data : Json) (sites : List Json) (urls : List String) (order : List Nat)
    (hread : readList fs = .ok data)
    (hsites : data.getKey "sites" = some (.arr sites))
    (hurls : sites.mapM (siteUrl username) = some urls)
    (hperm : List.Perm order (List.range sites.length)) :
    fetchResults net fs username order =
      some ((urls.map (fun url => doAsyncRequest net "GET" url)).map some) := by
  have hlen : urls.length = sites.length := mapM_option_length _ sites urls hurls
  unfold fetchResults
  rw [hread]
  dsimp only
  rw [hsites]
  dsimp only
  rw [hurls]
  dsimp only
  have hperm' : List.Perm order
      (List.range (urls.map (fun url => doAsyncRequest net "GET" url)).length) := by
    rw [List.length_map, hlen]
    exact hperm
  rw [gatherModel_perm _ order hperm']

/-- Example site definitions and catalog used to instantiate the theorems. -/
def exSiteA : Json :=
  .obj [("name", .str "SiteA"), ("uri_check", .str "https://a.example/\x7baccount\x7d/")]

/-- Second example site. -/
def exSiteB : Json :=
  .obj [("name", .str "SiteB"), ("uri_check", .str "https://b.example/u/\x7baccount\x7d")]

/-- Example local catalog with a passthrough top-level field. -/
def exCatalog : Json :=
  .obj [("license", .str "MIT"), ("sites", .arr [exSiteA, exSiteB])]

/-- Serialized form of the example catalog, as `downloadList` would write it. -/
def exCatalogText : String := String.mk (dumpVal4 0 exCatalog)

/-- Local file state holding the example catalog. -/
def exFs : FsState := ⟨some exCatalogText⟩

/-- Probe URLs of the example catalog for username `alice`. -/
def exUrls : List String := ["https://a.example/alice/", "https://b.example/u/alice"]

/-- Example network: site A answers with a JSON body, site B times out. -/
def exNet : NetOracle := fun _ url =>
  if url = "https://a.example/alice/" then
    .ok ⟨200, [("Content-Type", "application/json")], "\x7b\"found\": true\x7d"⟩
  else if url = "https://b.example/u/alice" then .error "ConnectTimeout"
  else .ok ⟨404, [], "nope"⟩

/-- Variant of `exNet` where site B succeeds as well. -/
def exNet2 : NetOracle := fun _ url =>
  if url = "https://a.example/alice/" then
    .ok ⟨200, [("Content-Type", "application/json")], "\x7b\"found\": true\x7d"⟩
  else if url = "https://b.example/u/alice" then .ok ⟨200, [], "\x7b\"found\": false\x7d"⟩
  else .ok ⟨404, [], "nope"⟩

/-- Example remote catalog (a newer list with a single site). -/
def exRemote : Json := .obj [("sites", .arr [exSiteA])]

/-- Serialized remote catalog. -/
def exRemoteText : String := String.mk (dumpVal4 0 exRemote)

/-- Remote catalog URL used in the examples. -/
def listURL0 : String := "https://raw.example/wmn/list.json"

/-- Network whose catalog endpoint serves the example remote catalog. -/
def exNetList : NetOracle := fun _ _ =>
  .ok ⟨200, [("Content-Type", "application/json")], exRemoteText⟩

/-- C1: for every catalog whose `sites` field contains N site definitions
and every username, `fetchResults` returns a sequence of exactly N probe
results whose order matches the catalog's `sites` sequence — site i's result
is `doAsyncRequest` on site i's substituted URL — with every site
contributing exactly one result, for every completion order of the probes
(any permutation of the task indices). -/
theorem C1_fetchResults_complete_ordered (net : NetOracle) (fs : FsState)
    (username : String) (data : Json) (sites : List Json) (urls : List String)
    (order : List Nat)
    (hread : readList fs = .ok data)
    (hsites : data.getKey "sites" = some (.arr sites))
    (hurls : sites.mapM (siteUrl username) = some urls)
    (hperm : List.Perm order (List.range sites.length)) :
    fetchResults net fs username order =
      some ((urls.map (fun url => doAsyncRequest net "GET" url)).map some) ∧
    urls.length = sites.length :=
  ⟨fetchResults_eval net fs username data sites urls order hread hsites hurls hperm,
   mapM_option_length _ sites urls hurls⟩

set_option maxRecDepth 1000000 in
/-- Witness for C1 at the two-site example catalog, with the completion
order reversed (site B finishes before site A). -/
theorem C1_fetchResults_complete_ordered_witness :
    fetchResults exNet exFs "alice" [1, 0] =
      some ((exUrls.map (fun url => doAsyncRequest exNet "GET" url)).map some) ∧
    exUrls.length = [exSiteA, exSiteB].length :=
  C1_fetchResults_complete_ordered exNet exFs "alice" exCatalog [exSiteA, exSiteB]
    exUrls [1, 0] rfl rfl rfl (by decide)

/-- C2: if any subset of the per-site probes fails, the run still completes
with one result per site, and every site whose probe behaves the same under
the two networks gets an identical result: comparing a run under `net1`
(where some probes may fail) with a run under `net2`, any site index whose
probe outcome agrees has the same result, independently of either run's
completion order — one site's failure never aborts the batch or changes a
sibling's result. -/
theorem C2_partial_failure_isolation (net1 net2 : NetOracle) (fs : FsState)
    (username : String) (data : Json) (sites : List Json) (urls : List String)
    (order1 order2 : List Nat) (i : Nat) (url : String)
    (hread : readList fs = .ok data)
    (hsites : data.getKey "sites" = some (.arr sites))
    (hurls : sites.mapM (siteUrl username) = some urls)
    (hperm1 : List.Perm order1 (List.range sites.length))
    (hperm2 : List.Perm order2 (List.range sites.length))
    (hurl : urls[i]? = some url)
    (hagree : doAsyncRequest net1 "GET" url = doAsyncRequest net2 "GET" url) :
    ∃ r1 r2, fetchResults net1 fs username order1 = some r1 ∧
      fetchResults net2 fs username order2 = some r2 ∧
      r1.length = sites.length ∧ r2.length = sites.length ∧
      r1[i]? = r2[i]? := by
  have hlen : urls.length = sites.length := mapM_option_length _ sites urls hurls
  refine ⟨(urls.map (fun u => doAsyncRequest net1 "GET" u)).map some,
    (urls.map (fun u => doAsyncRequest net2 "GET" u)).map some,
    fetchResults_eval net1 fs username data sites urls order1 hread hsites hurls hperm1,
    fetchResults_eval net2 fs username data sites urls order2 hread hsites hurls hperm2,
    by simp [hlen], by simp [hlen], ?_⟩
  simp only [List.getElem?_map, hurl, Option.map_some', hagree]

set_option maxRecDepth 1000000 in
/-- Witness for C2: under `exNet` site B's probe raises while under `exNet2`
it succeeds; site A (index 0) behaves identically, and the theorem yields
both full-length result lists agreeing at index 0, with different completion
orders. -/
theorem C2_partial_failure_isolation_witness :
    ∃ r1 r2, fetchResults exNet exFs "alice" [1, 0] = some r1 ∧
      fetchResults exNet2 exFs "alice" [0, 1] = some r2 ∧
      r1.length = [exSiteA, exSiteB].length ∧ r2.length = [exSiteA, exSiteB].length ∧
      r1[0]? = r2[0]? :=
  C2_partial_failure_isolation exNet exNet2 exFs "alice" exCatalog [exSiteA, exSiteB]
    exUrls [1, 0] [0, 1] 0 "https://a.example/alice/" rfl rfl rfl (by decide) (by decide)
    rfl rfl

theorem pyReplaceAux_no_occurrence (pat rep : List Char) :
    ∀ (fuel : Nat) (s : List Char), containsSub pat s = false →
    pyReplaceAux pat rep fuel s = s := by
  intro fuel
  induction fuel with
  | zero => intro s _; rfl
  | succ f ih =>
    intro s h
    cases s with
    | nil =>
      have hne : pat.isEmpty = false := h
      have hpre : pat.isPrefixOf [] = false := by
        cases pat with
        | nil => simp [List.isEmpty] at hne
        | cons p ps => rfl
      simp [pyReplaceAux, hpre]
    | cons c rest =>
      have h2 : pat.isPrefixOf (c :: rest) = false ∧ containsSub pat rest = false := by
        have hh : (pat.isPrefixOf (c :: rest) || containsSub pat rest) = false := h
        exact ⟨by cases hp : pat.isPrefixOf (c :: rest) <;> simp [hp] at hh ⊢,
          by cases hc : containsSub pat rest <;> simp [hc] at hh ⊢⟩
      simp [pyReplaceAux, h2.1, ih rest h2.2]

/-- Python `s.replace(pat, rep)` is the identity when `pat` does not occur
in `s`. -/
theorem pyReplace_no_occurrence (s pat rep : String)
    (h : containsSub pat.data s.data = false) : pyReplace s pat rep = s := by
  unfold pyReplace
  by_cases he : pat.data.isEmpty
  · simp [he]
  · rw [if_neg he, pyReplaceAux_no_occurrence pat.data rep.data _ s.data h, stringMk_data]

/-- C6: inside `fetchResults`, the probe target URL of a site is the site's
`uri_check` template with every `{account}` placeholder replaced by the
username; and when the template contains no `{account}` occurrence the
substitution is a no-op, so the literal template string is used as the URL. -/
theorem C6_siteUrl_substitution (username : String) (site : Json) (t : String)
    (huri : site.getKey "uri_check" = some (.str t)) :
    siteUrl username site = some (pyReplace t "\x7baccount\x7d" username) ∧
    (containsSub "\x7baccount\x7d".data t.data = false →
      pyReplace t "\x7baccount\x7d" username = t) := by
  constructor
  · unfold siteUrl
    rw [huri]
  · intro hno
    exact pyReplace_no_occurrence t "\x7baccount\x7d" username hno

/-- Spec example site `https://example.com/{account}`. -/
def exSpecSite : Json := .obj [("uri_check", .str "https://example.com/\x7baccount\x7d")]

/-- Template without the placeholder, used as a literal URL. -/
def exLiteralSite : Json := .obj [("uri_check", .str "https://static.example/check")]

/-- Witness for C6: the spec's example (username `alice` probes
`https://example.com/alice`) and a placeholder-free template left verbatim. -/
theorem C6_siteUrl_substitution_witness :
    (siteUrl "alice" exSpecSite =
      some (pyReplace "https://example.com/\x7baccount\x7d" "\x7baccount\x7d" "alice") ∧
      (containsSub "\x7baccount\x7d".data "https://example.com/\x7baccount\x7d".data = false →
        pyReplace "https://example.com/\x7baccount\x7d" "\x7baccount\x7d" "alice" =
          "https://example.com/\x7baccount\x7d")) ∧
    pyReplace "https://example.com/\x7baccount\x7d" "\x7baccount\x7d" "alice" =
      "https://example.com/alice" ∧
    (siteUrl "bob" exLiteralSite =
      some (pyReplace "https://static.example/check" "\x7baccount\x7d" "bob") ∧
      (containsSub "\x7baccount\x7d".data "https://static.example/check".data = false →
        pyReplace "https://static.example/check" "\x7baccount\x7d" "bob" =
          "https://static.example/check")) ∧
    pyReplace "https://static.example/check" "\x7baccount\x7d" "bob" =
      "https://static.example/check" :=
  ⟨C6_siteUrl_substitution "alice" exSpecSite _ rfl, by decide,
   C6_siteUrl_substitution "bob" exLiteralSite _ rfl, by decide⟩

/-- C8: whenever the HTTP exchange completes, a response body that does not
decode as JSON never fails the caller: both probe functions return
successfully with `parsed_json = none` rather than an error. -/
theorem C8_tolerant_json_decoding (net : NetOracle) (method url : String)
    (r : HttpResponse) (hok : net method url = .ok r)
    (hbody : jsonParse r.body = none) :
    doAsyncRequest net method url = .ok (r, none) ∧
    doSyncRequest net method url = .ok (r, none) := by
  constructor
  · unfold doAsyncRequest
    rw [hok]
    dsimp only
    rw [hbody]
  · unfold doSyncRequest
    rw [hok]
    dsimp only
    rw [hbody]

/-- Network returning an HTML error page on every request. -/
def exHtmlNet : NetOracle := fun _ _ =>
  .ok ⟨200, [("Content-Type", "text/html")], "<html>service unavailable</html>"⟩

set_option maxRecDepth 1000000 in
/-- Witness for C8 at a 200 response with an HTML (non-JSON) body. -/
theorem C8_tolerant_json_decoding_witness :
    doAsyncRequest exHtmlNet "GET" "https://a.example/alice/" =
      .ok (⟨200, [("Content-Type", "text/html")], "<html>service unavailable</html>"⟩, none) ∧
    doSyncRequest exHtmlNet "GET" "https://a.example/alice/" =
      .ok (⟨200, [("Content-Type", "text/html")], "<html>service unavailable</html>"⟩, none) :=
  C8_tolerant_json_decoding exHtmlNet "GET" "https://a.example/alice/"
    ⟨200, [("Content-Type", "text/html")], "<html>service unavailable</html>"⟩ rfl rfl

/-- C7: for every catalog value and every reordering of the keys of its
(nested) JSON objects, `hashJSON` returns the same digest — the fingerprint
depends only on content, not key insertion order. -/
theorem C7_hashJSON_key_order_independent (j1 j2 : Json) (h : Reord j1 j2)
    (hwf : Json.wf j1 = true) : hashJSON j1 = hashJSON j2 := by
  unfold hashJSON dumpSorted
  rw [reord_sortKeys h hwf]

/-- A two-level object. -/
def exReordA : Json :=
  .obj [("b", .int 1), ("a", .obj [("y", .bool true), ("x", .null)])]

/-- The same object with keys reordered at both levels. -/
def exReordB : Json :=
  .obj [("a", .obj [("x", .null), ("y", .bool true)]), ("b", .int 1)]

/-- Witness for C7: the two-level reordering preserves the MD5 fingerprint. -/
theorem C7_hashJSON_key_order_independent_witness :
    hashJSON exReordA = hashJSON exReordB := by
  have hinner : Reord (Json.obj [("y", .bool true), ("x", .null)])
      (Json.obj [("x", .null), ("y", .bool true)]) := by
    refine Reord.obj _ [("y", .bool true), ("x", .null)] _ rfl ?_ ?_
      (List.Perm.swap ("x", Json.null) ("y", Json.bool true) [])
    · intro i h1 h2
      match i, h1 with
      | 0, _ => rfl
      | 1, _ => rfl
    · intro i h1 h2
      match i, h1 with
      | 0, _ => exact Reord.bool true
      | 1, _ => exact Reord.null
  have h : Reord exReordA exReordB := by
    refine Reord.obj _ [("b", .int 1), ("a", .obj [("x", .null), ("y", .bool true)])] _
      rfl ?_ ?_
      (List.Perm.swap ("a", Json.obj [("x", .null), ("y", .bool true)]) ("b", Json.int 1) [])
    · intro i h1 h2
      match i, h1 with
      | 0, _ => rfl
      | 1, _ => rfl
    · intro i h1 h2
      match i, h1 with
      | 0, _ => exact Reord.int 1
      | 1, _ => exact hinner
  exact C7_hashJSON_key_order_independent exReordA exReordB h (by decide)

/-- C9: loading after saving returns the document written: after
`downloadList` persists a well-formed catalog `C` decoded from the remote
response, `readList` yields exactly `C`, all top-level fields included; and
the underlying serializer/parser pair round-trips `C` exactly. -/
theorem C9_load_after_save_roundtrip (net : NetOracle) (listURL : String)
    (fs : FsState) (r : HttpResponse) (C : Json)
    (hok : net "GET" listURL = .ok r) (hbody : jsonParse r.body = some C)
    (hwf : Json.wf C = true) :
    readList (downloadList net listURL true fs).2 = .ok C ∧
    jsonParse (String.mk (dumpVal4 0 C)) = some C := by
  have hrt : jsonParse (String.mk (dumpVal4 0 C)) = some C := jsonParse_dump C hwf
  refine ⟨?_, hrt⟩
  unfold downloadList doSyncRequest
  rw [hok]
  dsimp only
  rw [hbody]
  show readList ⟨some (String.mk (dumpVal4 0 (pyVal (some C))))⟩ = .ok C
  unfold readList
  dsimp only [pyVal, Option.getD]
  rw [hrt]

set_option maxRecDepth 1000000 in
/-- Witness for C9 at the example remote catalog (which carries a `license`
passthrough field next to `sites` in `exCatalog`; here the saved document is
`exRemote`). -/
theorem C9_load_after_save_roundtrip_witness :
    readList (downloadList exNetList listURL0 true exFs).2 = .ok exRemote ∧
    jsonParse (String.mk (dumpVal4 0 exRemote)) = some exRemote :=
  C9_load_after_save_roundtrip exNetList listURL0 exFs
    ⟨200, [("Content-Type", "application/json")], exRemoteText⟩ exRemote rfl rfl rfl

set_option maxRecDepth 4000000 in
set_option maxHeartbeats 2000000 in
/-- C3 failing input: with a good local catalog present, the remote fetch
"fails" by returning a 200 response whose body is not JSON.  `checkUpdates`
hashes the undecodable response as `null`, sees a fingerprint mismatch, and
`downloadList` then overwrites the local catalog file with the non-catalog
document `null` — the run even reports success.  The claim (and the spec)
requires the local catalog to be left unchanged here. -/
theorem C3_undecodable_remote_overwrites_catalog :
    checkUpdates exHtmlNet listURL0 true exFs = (.ok (), ⟨some "null"⟩) ∧
    exFs.file = some exCatalogText ∧ exCatalogText ≠ "null" :=
  ⟨rfl, rfl, by decide⟩

set_option maxRecDepth 1000000 in
/-- Counterexample to C4 as stated: `downloadList` is not atomic.  During a
successful save over the previously-good example catalog, the file passes
through a truncated (empty) intermediate state that is neither the old nor
the new document, so an interruption there loses the catalog. -/
theorem C4_not_atomic_counterexample :
    ¬ (∀ s ∈ downloadListStates exNetList listURL0 true exFs,
        s.file = exFs.file ∨
        s.file = (downloadList exNetList listURL0 true exFs).2.file) := by
  intro h
  have hmem : (⟨some ""⟩ : FsState) ∈ downloadListStates exNetList listURL0 true exFs := by
    rw [show downloadListStates exNetList listURL0 true exFs =
      [exFs, ⟨some ""⟩, ⟨some exRemoteText⟩] from rfl]
    exact List.mem_cons_of_mem _ (List.mem_cons_self _ _)
  rcases h ⟨some ""⟩ hmem with h1 | h2
  · rw [show exFs.file = some exCatalogText from rfl] at h1
    have : ("" : String) = exCatalogText := by
      simpa using h1
    revert this
    decide
  · rw [show (downloadList exNetList listURL0 true exFs).2.file = some exRemoteText
      from rfl] at h2
    have : ("" : String) = exRemoteText := by
      simpa using h2
    revert this
    decide

/-- C4 amended: `downloadList` writes the catalog in place, not atomically.
A fetch exception is surfaced with the file untouched; a failing `open`
surfaces `IOError` with the file untouched; on success the file is first
truncated and then receives the full new document, so the only intermediate
state is a truncated (empty) file — an interruption there leaves neither the
old nor the new catalog. -/
theorem C4_downloadList_in_place_write (net : NetOracle) (listURL : String)
    (fs : FsState) :
    (∀ e, net "GET" listURL = .error e →
      downloadList net listURL true fs = (.error e, fs) ∧
      downloadListStates net listURL true fs = [fs]) ∧
    (∀ r, net "GET" listURL = .ok r →
      downloadList net listURL false fs = (.error "IOError", fs) ∧
      downloadListStates net listURL false fs = [fs]) ∧
    (∀ r, net "GET" listURL = .ok r →
      downloadList net listURL true fs =
        (.ok (), ⟨some (String.mk (dumpVal4 0 (pyVal (jsonParse r.body))))⟩) ∧
      downloadListStates net listURL true fs =
        [fs, ⟨some ""⟩, ⟨some (String.mk (dumpVal4 0 (pyVal (jsonParse r.body))))⟩]) := by
  refine ⟨?_, ?_, ?_⟩
  · intro e he
    constructor
    · unfold downloadList doSyncRequest
      rw [he]
    · unfold downloadListStates doSyncRequest
      rw [he]
  · intro r hr
    constructor
    · unfold downloadList doSyncRequest
      rw [hr]
      rfl
    · unfold downloadListStates doSyncRequest
      rw [hr]
      rfl
  · intro r hr
    constructor
    · unfold downloadList doSyncRequest
      rw [hr]
      rfl
    · unfold downloadListStates doSyncRequest
      rw [hr]
      rfl

/-- Network whose catalog endpoint is unreachable. -/
def exDeadNet : NetOracle := fun _ _ => .error "ConnectionError"

set_option maxRecDepth 1000000 in
/-- Witness for the amended C4: all three behaviours at concrete inputs. -/
theorem C4_downloadList_in_place_write_witness :
    (downloadList exDeadNet listURL0 true exFs = (.error "ConnectionError", exFs) ∧
      downloadListStates exDeadNet listURL0 true exFs = [exFs]) ∧
    (downloadList exNetList listURL0 false exFs = (.error "IOError", exFs) ∧
      downloadListStates exNetList listURL0 false exFs = [exFs]) ∧
    (downloadList exNetList listURL0 true exFs =
      (.ok (), ⟨some (String.mk (dumpVal4 0 (pyVal (jsonParse exRemoteText))))⟩) ∧
      downloadListStates exNetList listURL0 true exFs =
        [exFs, ⟨some ""⟩, ⟨some (String.mk (dumpVal4 0 (pyVal (jsonParse exRemoteText))))⟩]) :=
  ⟨(C4_downloadList_in_place_write exDeadNet listURL0 exFs).1 "ConnectionError" rfl,
   (C4_downloadList_in_place_write exNetList listURL0 exFs).2.1
     ⟨200, [("Content-Type", "application/json")], exRemoteText⟩ rfl,
   (C4_downloadList_in_place_write exNetList listURL0 exFs).2.2
     ⟨200, [("Content-Type", "application/json")], exRemoteText⟩ rfl⟩

/-- C5: the freshness controller's two-state machine, for a remote endpoint
that serves a decodable catalog `jr`.  Starting Absent (no local file), one
run persists the fetched remote and ends Present with the local catalog
equal to the remote.  Starting Present with a local catalog whose
fingerprint equals the remote's, no write occurs (the file state is returned
unchanged).  Starting Present with a differing fingerprint, the local
catalog is replaced and afterwards equals the remote. -/
theorem C5_checkUpdates_state_machine (net : NetOracle) (listURL : String)
    (r : HttpResponse) (jr : Json)
    (hok : net "GET" listURL = .ok r) (hjr : jsonParse r.body = some jr)
    (hwf : Json.wf jr = true) :
    (∀ fs : FsState, fs.file = none →
      checkUpdates net listURL true fs = (.ok (), ⟨some (String.mk (dumpVal4 0 jr))⟩) ∧
      readList ⟨some (String.mk (dumpVal4 0 jr))⟩ = .ok jr) ∧
    (∀ (content : String) (jl : Json),
      jsonParse content = some jl → hashJSON jl = hashJSON jr →
      checkUpdates net listURL true ⟨some content⟩ = (.ok (), ⟨some content⟩)) ∧
    (∀ (content : String) (jl : Json),
      jsonParse content = some jl → hashJSON jl ≠ hashJSON jr →
      checkUpdates net listURL true ⟨some content⟩ =
        (.ok (), ⟨some (String.mk (dumpVal4 0 jr))⟩) ∧
      readList ⟨some (String.mk (dumpVal4 0 jr))⟩ = .ok jr) := by
  have hnew : readList ⟨some (String.mk (dumpVal4 0 jr))⟩ = .ok jr := by
    unfold readList
    dsimp only
    rw [jsonParse_dump jr hwf]
  have hdl : ∀ fs : FsState, downloadList net listURL true fs =
      (.ok (), ⟨some (String.mk (dumpVal4 0 jr))⟩) := by
    intro fs
    unfold downloadList doSyncRequest
    rw [hok]
    dsimp only
    rw [hjr]
    rfl
  refine ⟨?_, ?_, ?_⟩
  · intro fs hfs
    obtain ⟨file⟩ := fs
    have hf : file = none := hfs
    subst hf
    refine ⟨?_, hnew⟩
    unfold checkUpdates
    dsimp only
    exact hdl _
  · intro content jl hjl heq
    unfold checkUpdates
    dsimp only
    unfold readList
    dsimp only
    rw [hjl]
    dsimp only
    unfold doSyncRequest
    rw [hok]
    dsimp only
    rw [hjr]
    dsimp only [pyVal, Option.getD]
    have hcond : ¬ (hashJSON jl ≠ hashJSON jr) := fun hne => hne heq
    rw [if_neg hcond]
  · intro content jl hjl hne
    refine ⟨?_, hnew⟩
    unfold checkUpdates
    dsimp only
    unfold readList
    dsimp only
    rw [hjl]
    dsimp only
    unfold doSyncRequest
    rw [hok]
    dsimp only
    rw [hjr]
    dsimp only [pyVal, Option.getD]
    rw [if_pos hne]
    exact hdl _

set_option maxRecDepth 4000000 in
set_option maxHeartbeats 2000000 in
/-- Witness for C5: starting Absent downloads the remote catalog; starting
Present with identical content (equal fingerprints) leaves the file alone;
starting Present with the older example catalog (differing fingerprint)
replaces it with the remote. -/
theorem C5_checkUpdates_state_machine_witness :
    (checkUpdates exNetList listURL0 true ⟨none⟩ =
      (.ok (), ⟨some (String.mk (dumpVal4 0 exRemote))⟩) ∧
      readList ⟨some (String.mk (dumpVal4 0 exRemote))⟩ = .ok exRemote) ∧
    (checkUpdates exNetList listURL0 true ⟨some exRemoteText⟩ =
      (.ok (), ⟨some exRemoteText⟩)) ∧
    (checkUpdates exNetList listURL0 true ⟨some exCatalogText⟩ =
      (.ok (), ⟨some (String.mk (dumpVal4 0 exRemote))⟩) ∧
      readList ⟨some (String.mk (dumpVal4 0 exRemote))⟩ = .ok exRemote) := by
  have h := C5_checkUpdates_state_machine exNetList listURL0
    ⟨200, [("Content-Type", "application/json")], exRemoteText⟩ exRemote rfl rfl rfl
  exact ⟨h.1 ⟨none⟩ rfl, h.2.1 exRemoteText exRemote rfl rfl,
    h.2.2 exCatalogText exCatalog rfl (by decide)⟩

/-- Counterexample to C10 as stated: when the platform name maps to the
empty-string template, the claim demands the substituted template (the empty
string), but the empty template is falsy in Python, so the code skips the
template branch and returns the fallback chain's result instead. -/
theorem C10_empty_template_counterexample :
    get_profile_url [("X", "")] "X" "u" none = some ("Unknown platform: X") ∧
    pyFormat1 "" "u" = some "" ∧
    ¬ (get_profile_url [("X", "")] "X" "u" none = pyFormat1 "" "u") := by
  refine ⟨rfl, rfl, ?_⟩
  intro h
  rw [show get_profile_url [("X", "")] "X" "u" none = some ("Unknown platform: X")
    from rfl, show pyFormat1 "" "u" = some "" from rfl] at h
  have hxx : ("Unknown platform: X" : String) = "" := Option.some.inj h
  revert hxx
  decide

/-- C10 amended: `get_profile_url` never raises at the lookup level and
follows a total fallback chain with Python truthiness: a non-empty template
found in the platforms map is returned with the username substituted into
the positional placeholder; otherwise a given non-empty fallback URL is
returned unchanged; otherwise (name unmapped or mapped to the empty string,
and fallback absent or empty — both falsy) the string
`"Unknown platform: "` followed by the platform name is returned. -/
theorem C10_get_profile_url_fallback_chain (platforms : List (String × String))
    (name username : String) (fallback : Option String) :
    (∀ t, assocGet platforms name = some t → t ≠ "" →
      get_profile_url platforms name username fallback = pyFormat1 t username) ∧
    ((assocGet platforms name = none ∨ assocGet platforms name = some "") →
      ∀ f, fallback = some f → f ≠ "" →
      get_profile_url platforms name username fallback = some f) ∧
    ((assocGet platforms name = none ∨ assocGet platforms name = some "") →
      (fallback = none ∨ fallback = some "") →
      get_profile_url platforms name username fallback =
        some ("Unknown platform: " ++ name)) := by
  refine ⟨?_, ?_, ?_⟩
  · intro t hget hne
    unfold get_profile_url
    dsimp only
    rw [hget]
    have htr : pyTruthy (some t) = true := by
      simp only [pyTruthy, Bool.not_eq_true']
      cases hemp : t.isEmpty
      · rfl
      · exact absurd ((String.isEmpty_iff t).mp hemp) hne
    rw [htr]
    rfl
  · intro hget f hfb hne
    have hfalse : pyTruthy (assocGet platforms name) = false := by
      rcases hget with hg | hg <;> rw [hg] <;> rfl
    unfold get_profile_url
    dsimp only
    rw [hfalse, hfb]
    have htr : pyTruthy (some f) = true := by
      simp only [pyTruthy, Bool.not_eq_true']
      cases hemp : f.isEmpty
      · rfl
      · exact absurd ((String.isEmpty_iff f).mp hemp) hne
    rw [htr]
    rfl
  · intro hget hfb
    have hfalse : pyTruthy (assocGet platforms name) = false := by
      rcases hget with hg | hg <;> rw [hg] <;> rfl
    have hfalse2 : pyTruthy fallback = false := by
      rcases hfb with hg | hg <;> rw [hg] <;> rfl
    unfold get_profile_url
    dsimp only
    rw [hfalse, hfalse2]
    rfl

/-- Platforms map used in the C10 witness (as the default manager maps
GitHub). -/
def exPlatforms : List (String × String) :=
  [("GitHub", "https://github.com/\x7b\x7d"), ("Empty", "")]

/-- Witness for the amended C10: a mapped non-empty template is formatted
with the username, an unmapped name falls back to a non-empty fallback URL,
and an empty-template name with no fallback yields the unknown-platform
message. -/
theorem C10_get_profile_url_fallback_chain_witness :
    get_profile_url exPlatforms "GitHub" "testuser" none =
      pyFormat1 "https://github.com/\x7b\x7d" "testuser" ∧
    get_profile_url exPlatforms "NonExistentPlatform" "testuser"
      (some "https://example.com/testuser") = some "https://example.com/testuser" ∧
    get_profile_url exPlatforms "Empty" "testuser" none =
      some ("Unknown platform: " ++ "Empty") :=
  ⟨(C10_get_profile_url_fallback_chain exPlatforms "GitHub" "testuser" none).1
      "https://github.com/\x7b\x7d" rfl (by decide),
   (C10_get_profile_url_fallback_chain exPlatforms "NonExistentPlatform" "testuser"
      (some "https://example.com/testuser")).2.1 (Or.inl rfl)
      "https://example.com/testuser" rfl (by decide),
   (C10_get_profile_url_fallback_chain exPlatforms "Empty" "testuser" none).2.2
      (Or.inr rfl) (Or.inl rfl)⟩
